import Mathlib

/-!
Verification of the subtitle segmentation and formatting engine of the
docx-to-srt converter.

The Python sources are shallowly embedded: Python strings are modelled as
`List Char`, Python lists as Lean lists, the stateless methods of
`TextProcessor`, `TimestampGenerator` and `Converter` as pure functions.
Timestamps are modelled as exact rationals: every timestamp produced by the
document path is an integer multiple of 0.5 seconds, on which Python float
arithmetic is exact.
-/

namespace DocxSrt

/-- Python strings are modelled as lists of characters. -/
abbrev Str := List Char

/-- Characters treated as whitespace by Python's `str.strip` / `str.split`
(the ASCII whitespace characters). -/
def isPySpace (c : Char) : Bool :=
  c == ' ' || c == '\t' || c == '\n' || c == '\r' || c == '\x0b' || c == '\x0c'

/-- Python `s.lstrip()`. -/
def lstrip (s : Str) : Str := s.dropWhile isPySpace

/-- Python `s.rstrip()`. -/
def rstrip (s : Str) : Str := (s.reverse.dropWhile isPySpace).reverse

/-- Python `s.strip()`. -/
def strip (s : Str) : Str := rstrip (lstrip s)

/-- Python `s.split(sep)` for a one-character separator: keeps empty pieces. -/
def splitOnChar (sep : Char) (s : Str) : List Str :=
  s.foldr
    (fun c r =>
      match r with
      | [] => [[c]]
      | h :: t => if c = sep then [] :: h :: t else (c :: h) :: t)
    [[]]

/-- Helper for `pySplit`: split at every whitespace character, keeping
empty pieces. -/
def splitWsRaw (s : Str) : List Str :=
  s.foldr
    (fun c r =>
      match r with
      | [] => [[c]]
      | h :: t => if isPySpace c then [] :: h :: t else (c :: h) :: t)
    [[]]

/-- Python `s.split()` (no argument): split on whitespace runs, dropping
empty pieces. -/
def pySplit (s : Str) : List Str := (splitWsRaw s).filter (fun w => w ≠ [])

/-- Python `len(s.split())`, the whitespace word count used throughout the
text processor. -/
def wordCount (s : Str) : Nat := (pySplit s).length

/-- Python `" ".join(words)`. -/
def joinSp : List Str → Str
  | [] => []
  | [w] => w
  | w :: rest => w ++ ' ' :: joinSp rest

/-- Python `s.count('\n') `, the number of occurrences of a character. -/
def countChar (c : Char) (s : Str) : Nat := s.countP (fun d => d == c)

/-- Python `s.endswith(c)` for a single character. -/
def endsWithChar (c : Char) (s : Str) : Bool := s.getLast? == some c

/-- Python `s.replace('\n', ' ')`. -/
def replaceNlSp (s : Str) : Str := s.map (fun c => if c = '\n' then ' ' else c)

/-- Python `c in s` for a single character. -/
def containsChar (c : Char) (s : Str) : Bool := s.contains c

/-- Python `s.find(c, start)` with a possibly negative start index (a negative
start counts from the end of the string, clamped at 0); returns -1 when the
character does not occur at or after the start position. -/
def pyFindFrom (c : Char) (s : Str) (start : Int) : Int :=
  let st : Nat := if start < 0 then ((s.length : Int) + start).toNat else start.toNat
  match (s.drop st).findIdx? (fun d => d == c) with
  | some i => ((st + i : Nat) : Int)
  | none => -1

/-- Python `s.rfind(c)` as an optional index (the call sites only use it
after checking `c in s`). -/
def rfindIdx? (c : Char) (s : Str) : Option Nat :=
  match s.reverse.findIdx? (fun d => d == c) with
  | some i => some (s.length - 1 - i)
  | none => none

/-- Decimal digits of a natural number (fuel-driven structural recursion;
the fuel exceeds the number of digits).  Used to model Python string
interpolation of integers. -/
def natToStrAux : Nat → Nat → Str
  | 0, _ => []
  | fuel + 1, n =>
    if n < 10 then [Char.ofNat (48 + n)]
    else natToStrAux fuel (n / 10) ++ [Char.ofNat (48 + n % 10)]

/-- Decimal digits of a natural number. -/
def natToStr (n : Nat) : Str := natToStrAux (n + 1) n

/-- Matches `re.search(r'[.!?;:]$', s)`: the last character is sentence
punctuation. -/
def endsSentencePunct (s : Str) : Bool :=
  match s.getLast? with
  | some c => c == '.' || c == '!' || c == '?' || c == ';' || c == ':'
  | none => false

/-- Matches `re.search(r'\.\s*$', s)`: a period followed only by whitespace
up to the end of the string. -/
def endsPeriodThenWs (s : Str) : Bool := endsWithChar '.' (rstrip s)

/-! ## `src/timestamp_generator.py` -/

/-- Loop body of `TimestampGenerator.generate_timestamps`: each segment gets
the interval `(start, start + len(segment.split()) * 0.5)` and the next
segment starts where this one ended. -/
def generate_timestamps_go (start : ℚ) : List Str → List (ℚ × ℚ)
  | [] => []
  | seg :: rest =>
    let endTime := start + (wordCount seg : ℚ) * (1 / 2)
    (start, endTime) :: generate_timestamps_go endTime rest

/-- Embedding of `TimestampGenerator.generate_timestamps` (timestamps start
at 0 seconds). -/
def generate_timestamps (segments : List Str) : List (ℚ × ℚ) :=
  generate_timestamps_go 0 segments

/-- Python `str()` of a non-negative float that is an integer multiple of 0.5
(the only values the document path produces): `str(2.0) = "2.0"`,
`str(2.5) = "2.5"`.  For such values the integer part is `num` when the
denominator is 1 and `num / 2` otherwise. -/
def pyFloatStr (q : ℚ) : Str :=
  if q.den = 1 then natToStr q.num.toNat ++ ('.' :: ['0'])
  else natToStr (q.num / 2).toNat ++ ('.' :: ['5'])

/-- Zero padding to two digits, modelling Python's `f"{n:02d}"`. -/
def pad2 (n : Nat) : Str := if n < 10 then '0' :: natToStr n else natToStr n

/-- Embedding of the module-level `format_timestamp` in
`src/timestamp_generator.py`: renders `HH:MM:SS,mmm` with zero-padded fields
(`f"{hours:02d}:{minutes:02d}:{seconds:06.3f}".replace(".", ",")`), for
non-negative multiples of 0.5 seconds.  NOTE: this function is defined in the
source but never called by `Converter`. -/
def format_timestamp (q : ℚ) : Str :=
  let hours : Nat := (q / 3600).floor.toNat
  let minutes : Nat := ((q - hours * 3600) / 60).floor.toNat
  let secs : ℚ := q - hours * 3600 - minutes * 60
  let secInt : Nat := secs.floor.toNat
  let milli : Str := if secs.den = 1 then ['0', '0', '0'] else ['5', '0', '0']
  pad2 hours ++ (':' :: pad2 minutes) ++ (':' :: pad2 secInt) ++ (',' :: milli)

/-! ## `src/text_processor.py`: regular-expression helpers

The paragraphs handed to the text processor are produced by splitting on
`'\n'`, so they never contain a newline; the embeddings of the two speaker
regexes below are exact on newline-free inputs (and also track the regex
semantics of `.` stopping at a newline for the second group). -/

/-- Character class of `[\w\s-]` (`re.UNICODE`), restricted to the inputs
exercised here: alphanumerics, underscore, whitespace and hyphen. -/
def isWordClassChar (c : Char) : Bool :=
  c.isAlphanum || c == '_' || isPySpace c || c == '-'

/-- Embedding of `re.match(r'^([\w\s-]+):(.+)', s)`: the greedy class run can
only end at the first character outside the class, which must be the `':'`;
`(.+)` then matches greedily up to a newline or the end, and must be
non-empty.  Returns `(group(1), group(2))`. -/
def matchSpeakerContent (s : Str) : Option (Str × Str) :=
  let r := s.takeWhile isWordClassChar
  if r = [] then none
  else
    match s.drop r.length with
    | ':' :: rest =>
      let g2 := rest.takeWhile (fun c => c ≠ '\n')
      if g2 = [] then none else some (r, g2)
    | _ => none

/-- Embedding of `re.match(r'^([\w\s-]+:)\s*(.+)', s)` as used with
`keep_speaker=True`; group 1 includes the colon, `\s*` greedily eats the gap
and `(.+)` must match at least one character before a newline or the end. -/
def matchSpeakerKeep (s : Str) : Option (Str × Str) :=
  let r := s.takeWhile isWordClassChar
  if r = [] then none
  else
    match s.drop r.length with
    | ':' :: rest =>
      let g2 := (rest.dropWhile isPySpace).takeWhile (fun c => c ≠ '\n')
      if g2 = [] then none else some (r ++ [':'], g2)
    | _ => none

/-! ## `TextProcessor._find_optimal_break_point` -/

/-- Punctuation scan of `_find_optimal_break_point`: the first index `i` with
`0 < i < len(words)-1` whose word ends in `. ? ! ; :` and where both resulting
joined lines are within `max_chars`.  `fuel` drives the structural recursion;
callers pass more fuel than there are remaining indices. -/
def punctScanGo : Nat → List Str → Nat → Nat → Option Nat
  | 0, _, _, _ => none
  | fuel + 1, words, mc, i =>
    if i < words.length then
      let word := words.getD i []
      if 0 < i ∧ i < words.length - 1 then
        if endsWithChar '.' word || endsWithChar '?' word || endsWithChar '!' word
            || endsWithChar ';' word || endsWithChar ':' word then
          let first_line := joinSp (words.take (i + 1))
          let second_line := joinSp (words.drop (i + 1))
          if first_line.length ≤ mc ∧ second_line.length ≤ mc then some i
          else punctScanGo fuel words mc (i + 1)
        else punctScanGo fuel words mc (i + 1)
      else punctScanGo fuel words mc (i + 1)
    else none

/-- The `current_length` update of the balance scan: one separating space
before every word except the first, then the word itself. -/
def stepLen (i curLen wlen : Nat) : Nat :=
  (if i > 0 then curLen + 1 else curLen) + wlen

/-- Python `abs(a - b)` on the integer lengths of the balance scan. -/
def natAbsDiff (a b : Nat) : Nat := max a b - min a b

/-- The comparison `balance < best_balance` of the balance scan, where
`best_balance` starts as `float('inf')` (modelled as `none`), against which
every balance compares strictly smaller. -/
def betterThan (bal : Nat) : Option Nat → Bool
  | none => true
  | some b => decide (bal < b)

/-- Balance scan of `_find_optimal_break_point`: accumulates
`current_length` over the words; the second line is measured as
`len(total_text) - current_length` (which counts the separating space), and
the first strictly better feasible index wins. -/
def balanceScanGo (totalLen mc : Nat) :
    List Str → Nat → Nat → Nat → Option Nat → Nat
  | [], _, _, best, _ => best
  | w :: rest, i, curLen, best, bestBal =>
    if stepLen i curLen w.length ≤ mc ∧ totalLen - stepLen i curLen w.length ≤ mc then
      if betterThan (natAbsDiff (stepLen i curLen w.length)
          (totalLen - stepLen i curLen w.length)) bestBal then
        balanceScanGo totalLen mc rest (i + 1) (stepLen i curLen w.length) i
          (some (natAbsDiff (stepLen i curLen w.length)
            (totalLen - stepLen i curLen w.length)))
      else balanceScanGo totalLen mc rest (i + 1) (stepLen i curLen w.length)
        best bestBal
    else balanceScanGo totalLen mc rest (i + 1) (stepLen i curLen w.length)
      best bestBal

/-- Embedding of `TextProcessor._find_optimal_break_point(words, max_chars)`:
first the punctuation scan, then the balance scan starting from
`best_idx = 0` with `best_balance = ∞`. -/
def find_optimal_break_point (words : List Str) (mc : Nat) : Nat :=
  let total_text := joinSp words
  match punctScanGo (words.length + 1) words mc 0 with
  | some i => i
  | none => balanceScanGo total_text.length mc words 0 0 0 none

/-! ## `TextProcessor._try_combine_segments` -/

/-- Embedding of `TextProcessor._try_combine_segments`.  The float thresholds
of the source are exact on the integer lengths compared against them:
`max_chars * 2.2` agrees with the rational `11 * max_chars / 5` (encoded as
`5 * total ≤ 11 * mc`) and `max_chars * 1.5` with `3 * max_chars / 2`
(encoded as `2 * total ≤ 3 * mc`). -/
def try_combine_segments (segment1 segment2 : Str) (mc : Nat)
    (allow_longer : Bool) : Option Str :=
  if endsWithChar ':' segment1 ∧ wordCount segment1 = 1 then
    some (segment1 ++ ' ' :: segment2)
  else if endsWithChar '.' (strip segment1) then none
  else
    let total_length := (replaceNlSp segment1).length + (replaceNlSp segment2).length + 1
    let fits : Bool :=
      if allow_longer then decide (5 * total_length ≤ 11 * mc)
      else decide (total_length ≤ 2 * mc)
    if fits then
      if containsChar '\n' segment1 then
        let lines := splitOnChar '\n' segment1
        if lines.length ≥ 2 then
          let l0 := lines.getD 0 []
          let l1 := lines.getD 1 []
          if 2 * (l0.length + l1.length) ≤ 3 * mc then
            if l1.length + segment2.length + 1 ≤ mc then
              some (l0 ++ '\n' :: (l1 ++ ' ' :: segment2))
            else none
          else none
        else
          if segment2.length ≤ mc then some (segment1 ++ '\n' :: segment2) else none
      else if segment1.length + segment2.length ≤ mc then
        some (segment1 ++ ' ' :: segment2)
      else
        let combined_text := segment1 ++ ' ' :: segment2
        let words := pySplit combined_text
        let best_idx := find_optimal_break_point words mc
        let first_line := joinSp (words.take (best_idx + 1))
        let second_line := joinSp (words.drop (best_idx + 1))
        if first_line.length ≤ mc ∧ second_line.length ≤ mc then
          some (first_line ++ '\n' :: second_line)
        else none
    else none

/-! ## `TextProcessor._break_into_two_lines` -/

/-- Natural-break loop of `_break_into_two_lines`: the first index
`i < len(words)-1` whose word ends in `. , ; :` such that both joined parts
fit `max_chars` yields a single two-line segment. -/
def naturalBreakGo : Nat → List Str → Nat → Nat → Option Str
  | 0, _, _, _ => none
  | fuel + 1, words, mc, i =>
    if i < words.length - 1 then
      let w := words.getD i []
      if endsWithChar '.' w || endsWithChar ',' w || endsWithChar ';' w
          || endsWithChar ':' w then
        let first_part := joinSp (words.take (i + 1))
        let second_part := joinSp (words.drop (i + 1))
        if first_part.length ≤ mc ∧ second_part.length ≤ mc then
          some (first_part ++ '\n' :: second_part)
        else naturalBreakGo fuel words mc (i + 1)
      else naturalBreakGo fuel words mc (i + 1)
    else none

/-- Greedy fallback of `_break_into_two_lines`: fill line 1, then line 2,
then flush the two lines as a segment and start over. -/
def breakGreedyGo (mc : Nat) : List Str → Str → Str → List Str → List Str
  | [], l1, l2, acc =>
    if l1 ≠ [] ∨ l2 ≠ [] then
      acc ++ [l1 ++ (if l2 ≠ [] then '\n' :: l2 else [])]
    else acc
  | w :: rest, l1, l2, acc =>
    if l1.length + w.length + (if l1 ≠ [] then 1 else 0) ≤ mc then
      breakGreedyGo mc rest (if l1 ≠ [] then l1 ++ ' ' :: w else w) l2 acc
    else if l2.length + w.length + (if l2 ≠ [] then 1 else 0) ≤ mc then
      breakGreedyGo mc rest l1 (if l2 ≠ [] then l2 ++ ' ' :: w else w) acc
    else if l1 ≠ [] ∧ l2 ≠ [] then
      breakGreedyGo mc rest w [] (acc ++ [l1 ++ '\n' :: l2])
    else
      breakGreedyGo mc rest w [] (acc ++ [l1])

/-- Embedding of `TextProcessor._break_into_two_lines(text, max_chars)`.
The `re.sub(r'([.!?;:])(\s)', r'\1\2', text)` in the source replaces every
match by itself and is the identity. -/
def break_into_two_lines (text : Str) (mc : Nat) : List Str :=
  if text.length ≤ mc then [text]
  else
    let words := pySplit text
    let total_length := text.length
    if total_length ≤ mc * 2 then
      match naturalBreakGo (words.length + 1) words mc 0 with
      | some seg => [seg]
      | none =>
        let best_idx := find_optimal_break_point words mc
        if best_idx > 0 then
          [joinSp (words.take (best_idx + 1)) ++ '\n' :: joinSp (words.drop (best_idx + 1))]
        else breakGreedyGo mc words [] [] []
    else breakGreedyGo mc words [] [] []

/-! ## `TextProcessor._format_subtitle_text` -/

/-- Embedding of `re.split(r'([.!?;:](?:\s|$))', text)`: pieces alternate
with the captured separators (a punctuation character followed by one
whitespace character, or at the end of the string by nothing). -/
def reSplitSentGo : Nat → Str → Str → List Str
  | 0, _, cur => [cur.reverse]
  | fuel + 1, s, cur =>
    match s with
    | [] => [cur.reverse]
    | c :: rest =>
      if c == '.' || c == '!' || c == '?' || c == ';' || c == ':' then
        match rest with
        | [] => cur.reverse :: [c] :: [[]]
        | d :: rest2 =>
          if isPySpace d then cur.reverse :: [c, d] :: reSplitSentGo fuel rest2 []
          else reSplitSentGo fuel rest (c :: cur)
      else reSplitSentGo fuel rest (c :: cur)

/-- Matches `re.match(r'[.!?;:](?:\s|$)', b)`: the first character is
sentence punctuation and is followed by a whitespace character or by the end
of the string. -/
def sepMatch (b : Str) : Bool :=
  match b with
  | [] => false
  | c :: brest =>
    (c == '.' || c == '!' || c == '?' || c == ';' || c == ':')
      && (match brest with
          | [] => true
          | d :: _ => isPySpace d)

/-- The sentence recombination loop of `_format_subtitle_text`: a piece
followed by a separator (matched by `re.match(r'[.!?;:](?:\s|$)', ·)`) is
glued back together; other pieces are kept when non-blank. -/
def recombineGo : Nat → List Str → List Str
  | 0, l => l
  | fuel + 1, l =>
    match l with
    | [] => []
    | [a] => if strip a ≠ [] then [a] else []
    | a :: b :: rest2 =>
      if sepMatch b then (a ++ b) :: recombineGo fuel rest2
      else if strip a ≠ [] then a :: recombineGo fuel (b :: rest2)
      else recombineGo fuel (b :: rest2)

/-- The sentence-assembly loop of `_format_subtitle_text`: accumulate full
sentences into segments of at most `max_chars`, handing over-long sentences
to `_break_into_two_lines`. -/
def assembleGo (mc : Nat) : List Str → Str → List Str → List Str
  | [], cur, acc => if strip cur ≠ [] then acc ++ [strip cur] else acc
  | s :: rest, cur, acc =>
    if cur.length + s.length ≤ mc then assembleGo mc rest (cur ++ s) acc
    else if cur ≠ [] then
      if s.length ≤ mc then assembleGo mc rest s (acc ++ [strip cur])
      else
        let acc2 := if strip cur ≠ [] then acc ++ [strip cur] else acc
        assembleGo mc rest [] (acc2 ++ break_into_two_lines s mc)
    else assembleGo mc rest [] (acc ++ break_into_two_lines s mc)

/-- The sentence-splitting tail of `_format_subtitle_text` (everything after
the period-split attempt); it does not recurse. -/
def sentencePath (text : Str) (mc : Nat) : List Str :=
  let sentences := reSplitSentGo (text.length + 1) text []
  assembleGo mc (recombineGo (sentences.length + 1) sentences) [] []

/-- Embedding of `TextProcessor._format_subtitle_text(text, max_chars,
keep_speaker)`.  The function recurses on strictly shorter remainder texts;
the `fuel` argument bounds that recursion depth and all callers pass a fuel
exceeding the length of the text, which the recursion can never exhaust.
Both recursive call sites in the source use the default arguments
`max_chars=42, keep_speaker=False`. -/
def format_subtitle_text : Nat → Str → Nat → Bool → List Str
  | 0, text, _, _ => [text]
  | fuel + 1, text, mc, keep_speaker =>
    if text.length ≤ mc then [text]
    else
      let keepResult : Option (List Str) :=
        if keep_speaker then
          match matchSpeakerKeep text with
          | some (speaker, g2) =>
            let content := strip g2
            let first_space_idx :=
              pyFindFrom ' ' content ((mc : Int) - (speaker.length : Int) - 1)
            if first_space_idx > 0 then
              let fsi := first_space_idx.toNat
              let first_part_content := content.take fsi
              let remaining_content := strip (content.drop (fsi + 1))
              let first_part := speaker ++ ' ' :: first_part_content
              if first_part.length ≤ mc ∧ remaining_content ≠ [] then
                some (first_part :: format_subtitle_text fuel remaining_content 42 false)
              else none
            else none
          | none => none
        else none
      match keepResult with
      | some r => r
      | none =>
        let periodResult : Option (List Str) :=
          if containsChar '.' text ∧ ¬ endsWithChar '.' text then
            match rfindIdx? '.' text with
            | some period_idx =>
              if 0 < period_idx ∧ period_idx < text.length - 1 then
                let first_part := strip (text.take (period_idx + 1))
                let second_part := strip (text.drop (period_idx + 1))
                if first_part.length ≤ mc ∧ second_part ≠ [] then
                  some (first_part :: format_subtitle_text fuel second_part 42 false)
                else none
              else none
            | none => none
          else none
        match periodResult with
        | some r => r
        | none => sentencePath text mc

/-! ## `TextProcessor._post_process_segments` (the active, second definition
at line 172 of the source; the first definition at line 79 is shadowed by it
and is dead code) -/

/-- Balanced-rebuild loop of the first pass: `best_break` starts at
`len(words) // 2` and is replaced by any index whose two joined parts both
fit `max_chars` and are strictly better balanced than the current best. -/
def rebuildBalanceGo : Nat → List Str → Nat → Nat → Nat → Nat
  | 0, _, _, _, best => best
  | fuel + 1, words, mc, j, best =>
    if j < words.length then
      let fp := (joinSp (words.take j)).length
      let sp := (joinSp (words.drop j)).length
      let bb := (joinSp (words.take best)).length
      let bs := (joinSp (words.drop best)).length
      if fp ≤ mc ∧ sp ≤ mc ∧ max fp sp - min fp sp < max bb bs - min bb bs then
        rebuildBalanceGo fuel words mc (j + 1) j
      else rebuildBalanceGo fuel words mc (j + 1) best
    else best

/-- First pass of the active `_post_process_segments`: a segment ending in
`':'` with at most 2 words is merged with its successor; a very short next
segment (at most 2 words, or ending in a period with at most 4 words) is
absorbed into the current segment; after each mutation the same position is
examined again. -/
def firstPassGo (mc : Nat) : Nat → List Str → List Str
  | 0, segs => segs
  | fuel + 1, segs =>
    match segs with
    | [] => []
    | [x] => [x]
    | current :: next :: rest =>
      if endsWithChar ':' current ∧ wordCount current ≤ 2 then
        firstPassGo mc fuel ((current ++ ' ' :: next) :: rest)
      else
        let nwc := wordCount next
        if nwc ≤ 2 ∨ (endsWithChar '.' (strip next) ∧ nwc ≤ 4) then
          let newcur :=
            if containsChar '\n' current then
              let lines := splitOnChar '\n' current
              let l0 := lines.getD 0 []
              let l1 := lines.getD 1 []
              if l1.length + next.length + 1 ≤ mc then
                l0 ++ '\n' :: (l1 ++ ' ' :: next)
              else
                let combined := replaceNlSp current ++ ' ' :: next
                let words := pySplit combined
                let best := rebuildBalanceGo (words.length + 1) words mc 1 (words.length / 2)
                joinSp (words.take best) ++ '\n' :: joinSp (words.drop best)
            else if current.length + next.length + 1 ≤ mc then current ++ ' ' :: next
            else current ++ '\n' :: next
          firstPassGo mc fuel (newcur :: rest)
        else current :: firstPassGo mc fuel (next :: rest)

/-- First pass with sufficient fuel: every iteration shortens the segment
list, so `length + 1` steps always complete the sweep. -/
def firstPass (mc : Nat) (segs : List Str) : List Str :=
  firstPassGo mc (segs.length + 1) segs

/-- One summand of the termination measure for the standard-processing loop:
a segment contributes its length plus one. -/
def segWeight (segs : List Str) : Nat := segs.foldl (fun a s => a + s.length + 1) 0

/-- Standard-processing loop of the active `_post_process_segments` (the
`while i < len(segments)` loop): truncates segments to two lines, re-inserts
the remaining lines (in reverse order, an artifact of repeated
`insert(i+1, ·)`), and greedily combines short or unpunctuated segments.
Each iteration strictly decreases `segWeight` of the remaining list, so the
fuel passed by `phaseB` can never run out. -/
def phaseBGo (mc : Nat) : Nat → List Str → List Str
  | 0, segs => segs
  | fuel + 1, segs =>
    match segs with
    | [] => []
    | current0 :: rest0 =>
      let truncated :=
        if countChar '\n' current0 > 1 then
          let lines := splitOnChar '\n' current0
          let cur := lines.getD 0 [] ++ '\n' :: lines.getD 1 []
          let extras := ((lines.drop 2).filter (fun l => strip l ≠ [])).reverse
          (cur, extras ++ rest0)
        else (current0, rest0)
      let current := truncated.1
      match truncated.2 with
      | [] => [current]
      | next :: rest2 =>
        let nwc := wordCount next
        let ncc := next.length
        let attempt1 : Option Str :=
          if (nwc ≤ 5 ∨ ncc ≤ 25) ∧ ¬ endsPeriodThenWs current then
            try_combine_segments current next mc false
          else none
        match attempt1 with
        | some combined => combined :: phaseBGo mc fuel rest2
        | none =>
          let attempt2 : Option Str :=
            if ¬ endsSentencePunct (strip (replaceNlSp current)) then
              try_combine_segments current next mc true
            else none
          match attempt2 with
          | some combined => combined :: phaseBGo mc fuel rest2
          | none => current :: phaseBGo mc fuel (next :: rest2)

/-- Standard-processing loop with sufficient fuel. -/
def phaseB (mc : Nat) (segs : List Str) : List Str :=
  phaseBGo mc (segWeight segs + 1) segs

/-- Final pass of the active `_post_process_segments`: when the second line
of a segment starts with `". "`, the period is moved to the end of the first
line (discarding any lines beyond the second). -/
def fixPeriodsSeg (seg : Str) : Str :=
  if containsChar '\n' seg ∧ containsChar '.' seg then
    let lines := splitOnChar '\n' seg
    let l1 := lines.getD 1 []
    if l1.take 2 = ['.', ' '] then
      (lines.getD 0 [] ++ ['.']) ++ '\n' :: strip (l1.drop 2)
    else seg
  else seg

/-- Embedding of the active `TextProcessor._post_process_segments(segments,
max_chars=42)`. -/
def post_process_segments (segments : List Str) (mc : Nat) : List Str :=
  (phaseB mc (firstPass mc segments)).map fixPeriodsSeg

/-! ## `TextProcessor.split_text` -/

/-- Lookahead of the speaker-without-content branch of `split_text`: the
first paragraph at index `≥ k` whose stripped text is non-empty, returned
together with its index. -/
def findNextContent : Nat → List Str → Nat → Option (Nat × Str)
  | 0, _, _ => none
  | fuel + 1, paras, k =>
    if k < paras.length then
      let np := strip (paras.getD k [])
      if np ≠ [] then some (k, np) else findNextContent fuel paras (k + 1)
    else none

/-- Paragraph loop of `split_text`.  `fuelFmt` is the fuel handed to
`format_subtitle_text` (always larger than any text formatted).  The
speaker-without-content branch mirrors the source exactly, including
`paragraphs.index(paragraph)` (the first occurrence of an equal paragraph)
and the blanking of the consumed lookahead paragraph. -/
def split_text_go (fuelFmt : Nat) : Nat → List Str → Nat → List Str
  | 0, _, _ => []
  | fuel + 1, paras, i =>
    if i < paras.length then
      let paragraph := paras.getD i []
      if strip paragraph = [] then split_text_go fuelFmt fuel paras (i + 1)
      else
        match matchSpeakerContent (strip paragraph) with
        | some (g1, g2) =>
          let speaker := strip g1 ++ [':']
          let content := strip g2
          if content ≠ [] then
            format_subtitle_text fuelFmt (speaker ++ ' ' :: content) 42 true
              ++ split_text_go fuelFmt fuel paras (i + 1)
          else
            let j := paras.findIdx (fun p => p == paragraph)
            match findNextContent (paras.length + 1) paras (j + 1) with
            | some np =>
              if (matchSpeakerContent np.2).isSome then
                speaker :: split_text_go fuelFmt fuel paras (i + 1)
              else
                format_subtitle_text fuelFmt (speaker ++ ' ' :: np.2) 42 true
                  ++ split_text_go fuelFmt fuel (paras.set np.1 []) (i + 1)
            | none => speaker :: split_text_go fuelFmt fuel paras (i + 1)
        | none =>
          format_subtitle_text fuelFmt (strip paragraph) 42 false
            ++ split_text_go fuelFmt fuel paras (i + 1)
    else []

/-- Embedding of `TextProcessor.split_text(text)`: split the stripped text
into paragraphs at newlines, format each, drop blank segments, and
post-process with `max_chars = 42`. -/
def split_text (text : Str) : List Str :=
  let paragraphs := splitOnChar '\n' (strip text)
  let segments := split_text_go (text.length + 1) (paragraphs.length + 1) paragraphs 0
  post_process_segments (segments.filter (fun seg => strip seg ≠ [])) 42

/-! ## `src/converter.py` -/

/-- Embedding of `Converter.format_srt_entry`: the f-string
`f"{index}\n{start_time} --> {end_time}\n{text}\n\n"` where `start_time` and
`end_time` are the raw float timestamps handed over by
`generate_timestamps` (no `HH:MM:SS,mmm` conversion is applied). -/
def format_srt_entry (index : Nat) (start_time end_time : ℚ) (text : Str) : Str :=
  natToStr index ++ ('\n' :: pyFloatStr start_time) ++ (' ' :: '-' :: '-' :: '>' :: ' ' :: pyFloatStr end_time) ++ ('\n' :: text) ++ ('\n' :: ['\n'])

/-- Embedding of `Converter.format_srt`: formats each `(segment, timestamp)`
pair with a 1-based index and joins the entries with `"\n"`. -/
def format_srt (segments : List Str) (timestamps : List (ℚ × ℚ)) : Str :=
  List.intercalate ['\n']
    ((segments.zip timestamps).enum.map
      (fun p => format_srt_entry (p.1 + 1) p.2.2.1 p.2.2.2 p.2.1))

/-! ## `src/audio_processor.py` (and the identical copy in `web/app.py`):
`convert_to_srt` -/

/-- One word with its time offsets, as supplied by the speech-recognition
collaborator. -/
structure SpeechWord where
  word : Str
  start_time : ℚ
  end_time : ℚ
deriving DecidableEq, Repr

/-- One alternative of a recognition result. -/
structure SpeechAlternative where
  transcript : Str
  words : List SpeechWord
deriving DecidableEq, Repr

/-- One recognition result. -/
structure RecognitionResult where
  alternatives : List SpeechAlternative
deriving DecidableEq, Repr

/-- The per-utterance dictionaries built by `convert_to_srt`. -/
structure SrtSegment where
  text : Str
  start_time : ℚ
  end_time : ℚ
deriving DecidableEq, Repr

/-- The Python error raised by a failed attribute lookup. -/
inductive PyError where
  | attributeError
deriving DecidableEq, Repr

/-- The method names bound by `class TextProcessor` in
`src/text_processor.py` (`_post_process_segments` is defined twice; the
class dictionary keeps a single binding). -/
def textProcessorMethods : List Str :=
  [("extract_text".toList), ("split_text".toList),
   ("_post_process_segments".toList), ("_try_combine_segments".toList),
   ("_find_optimal_break_point".toList), ("_format_subtitle_text".toList),
   ("_break_into_two_lines".toList)]

/-- The filtering loop of `convert_to_srt`: utterances without alternatives,
with a blank transcript, or without words are dropped; the rest keep the
first word's start time and the last word's end time. -/
def extractSegments : List RecognitionResult → List SrtSegment
  | [] => []
  | r :: rest =>
    match r.alternatives with
    | [] => extractSegments rest
    | alt :: _ =>
      let transcript := strip alt.transcript
      if transcript = [] then extractSegments rest
      else
        match alt.words with
        | [] => extractSegments rest
        | w :: _ =>
          { text := transcript, start_time := w.start_time,
            end_time := (alt.words.getLastD w).end_time } :: extractSegments rest

/-- The attribute access `text_processor._enforce_character_limit`: the
class `TextProcessor` binds no method of that name, so the lookup raises
`AttributeError`.  (The `ok` branch is unreachable because the method table
does not contain the name.) -/
def callEnforceCharacterLimit : Except PyError (List Str) :=
  if ("_enforce_character_limit".toList) ∈ textProcessorMethods then Except.ok []
  else Except.error PyError.attributeError

/-- The processing loop of `convert_to_srt`: each extracted segment is handed
to `text_processor._enforce_character_limit`, and the pieces inherit the
segment's start/end times. -/
def processSegmentsAudio : List SrtSegment → Except PyError (List SrtSegment)
  | [] => Except.ok []
  | seg :: rest =>
    match callEnforceCharacterLimit with
    | Except.error e => Except.error e
    | Except.ok txts =>
      match processSegmentsAudio rest with
      | Except.error e => Except.error e
      | Except.ok tail =>
        Except.ok ((txts.map (fun t => { seg with text := t })) ++ tail)

/-- Embedding of `AudioProcessor._format_timestamp` (identical in
`web/app.py`), for non-negative multiples of 0.5 seconds:
`f"{hours:02d}:{minutes:02d}:{secs:02d},{msecs:03d}"`. -/
def audio_format_timestamp (q : ℚ) : Str :=
  let hours : Nat := (q / 3600).floor.toNat
  let minutes : Nat := ((q - (q / 3600).floor * 3600) / 60).floor.toNat
  let secs : Nat := (q - 60 * (q / 60).floor).floor.toNat
  let msecs : Str := if q.den = 1 then ['0', '0', '0'] else ['5', '0', '0']
  pad2 hours ++ (':' :: pad2 minutes) ++ (':' :: pad2 secs) ++ (',' :: msecs)

/-- Embedding of `AudioProcessor.convert_to_srt` (and the identical method
in `web/app.py`): filters the recognition results, runs the (missing)
limit-enforcement method on each surviving utterance, and on success returns
the text written to the output file. -/
def convert_to_srt (results : List RecognitionResult) : Except PyError Str :=
  match processSegmentsAudio (extractSegments results) with
  | Except.error e => Except.error e
  | Except.ok processed =>
    Except.ok
      ((processed.enum.map
        (fun p =>
          natToStr (p.1 + 1) ++ ('\n' :: audio_format_timestamp p.2.start_time)
            ++ (' ' :: '-' :: '-' :: '>' :: ' ' :: audio_format_timestamp p.2.end_time)
            ++ ('\n' :: p.2.text) ++ ('\n' :: ['\n']))).flatten)

/-! ## The Limit-Enforcement Pass

Modelled from the spec: `class TextProcessor` defines no method
`_enforce_character_limit`, yet the audio path invokes it, so the pass's
body is not in `src/`.  Spec section 4.5 describes it: "For each cue: split
it into its lines; for each line exceeding `max_chars`, rewrap greedily at
word boundaries without regard to punctuation, producing as many lines as
needed; then regroup the flattened line list back into cues of at most 2
lines each (extra lines become new trailing cues)." -/

/-- Modelled from the spec: greedy rewrap at word boundaries — accumulate
words into the current line while the next word still fits `max_chars`,
then start a new line. -/
def greedyWrapGo (mc : Nat) : List Str → Str → List Str
  | [], cur => if cur = [] then [] else [cur]
  | w :: rest, cur =>
    if cur = [] then greedyWrapGo mc rest w
    else if cur.length + 1 + w.length ≤ mc then greedyWrapGo mc rest (cur ++ ' ' :: w)
    else cur :: greedyWrapGo mc rest w

/-- Modelled from the spec: a line exceeding `max_chars` is rewrapped
greedily at word boundaries; other lines are kept. -/
def rewrapLine (mc : Nat) (l : Str) : List Str :=
  if l.length ≤ mc then [l] else greedyWrapGo mc (pySplit l) []

/-- Modelled from the spec: regroup a flattened line list into cues of at
most 2 lines each; extra lines become new trailing cues. -/
def regroupPairs : List Str → List Str
  | [] => []
  | [a] => [a]
  | a :: b :: rest => (a ++ '\n' :: b) :: regroupPairs rest

/-- Modelled from the spec: the enforcement of one cue — split it into its
lines, rewrap each over-long line, and regroup the flattened line list into
cues of at most two lines. -/
def enforceCue (mc : Nat) (cue : Str) : List Str :=
  regroupPairs (((splitOnChar '\n' cue).map (rewrapLine mc)).flatten)

/-- Modelled from the spec: the Limit-Enforcement Pass
(`_enforce_character_limit` as specified in section 4.5), applied to a list
of cue texts. -/
def enforce_character_limit (cues : List Str) (mc : Nat) : List Str :=
  (cues.map (enforceCue mc)).flatten

/-- A line as produced by the enforcement pass: it contains no newline and
is either within the budget or a single unsplittable whitespace-free word. -/
def GoodLine (mc : Nat) (l : Str) : Prop :=
  '\n' ∉ l ∧
    (l.length ≤ mc ∨ ((∀ c ∈ l, isPySpace c = false) ∧ l ≠ []))

/-! ## Statelessness of the engine

`class TextProcessor` and `class TimestampGenerator` define no `__init__`
and no method ever assigns an instance attribute or a global, so an
instance's state is empty; the state-passing translation threads it
unchanged through every call. -/

/-- The instance state of a `TextProcessor` object: the class never stores
any attribute on `self`. -/
structure TextProcessorState

/-- The instance state of a `TimestampGenerator` object: the class never
stores any attribute on `self`. -/
structure TimestampGeneratorState

/-- Method call `tp.split_text(text)` in state-passing form. -/
def split_textM (st : TextProcessorState) (text : Str) :
    List Str × TextProcessorState :=
  (split_text text, st)

/-- Method call `tg.generate_timestamps(segments)` in state-passing form. -/
def generate_timestampsM (st : TimestampGeneratorState) (segments : List Str) :
    List (ℚ × ℚ) × TimestampGeneratorState :=
  (generate_timestamps segments, st)

/-- A sequence of `split_text` calls against one `TextProcessor` instance,
threading its state. -/
def runSplitCalls (st : TextProcessorState) :
    List Str → List (List Str) × TextProcessorState
  | [] => ([], st)
  | t :: rest =>
    let r := split_textM st t
    let rest2 := runSplitCalls r.2 rest
    (r.1 :: rest2.1, rest2.2)

/-- A sequence of `generate_timestamps` calls against one
`TimestampGenerator` instance, threading its state. -/
def runTimestampCalls (st : TimestampGeneratorState) :
    List (List Str) → List (List (ℚ × ℚ)) × TimestampGeneratorState
  | [] => ([], st)
  | t :: rest =>
    let r := generate_timestampsM st t
    let rest2 := runTimestampCalls r.2 rest
    (r.1 :: rest2.1, rest2.2)

/-! ## Specification-side helper predicates used by the theorems -/

/-- An utterance that survives the filtering loop of `convert_to_srt`: it
has at least one alternative whose transcript strips to something non-empty
and whose word list is non-empty. -/
def utteranceSurvives (r : RecognitionResult) : Bool :=
  match r.alternatives with
  | [] => false
  | alt :: _ => strip alt.transcript ≠ [] && alt.words ≠ []

/-- A string that is exactly a bare speaker tag in the sense of the spec's
data model: a non-empty run of word characters, spaces and hyphens followed
by a colon, with nothing after it. -/
def isBareSpeakerTag (s : Str) : Bool :=
  endsWithChar ':' s && s.dropLast ≠ [] && s.dropLast.all isWordClassChar

/-- Length of `" ".join(words[:i])`, the running `current_length` of the
balance scan after `i` words have been consumed. -/
def joinAcc (words : List Str) (i : Nat) : Nat := (joinSp (words.take i)).length

/-- Total length of `" ".join(words)`, the `len(total_text)` of
`_find_optimal_break_point`. -/
def totalLen (words : List Str) : Nat := (joinSp words).length

/-- The punctuation-break test of `_find_optimal_break_point` at index `i`:
an interior index whose word ends in `. ? ! ; :` such that both joined
lines fit `max_chars`. -/
def isCodePunctBreak (words : List Str) (mc i : Nat) : Bool :=
  decide (0 < i ∧ i < words.length - 1)
    && (let w := words.getD i []
        endsWithChar '.' w || endsWithChar '?' w || endsWithChar '!' w
          || endsWithChar ';' w || endsWithChar ':' w)
    && decide ((joinSp (words.take (i + 1))).length ≤ mc
        ∧ (joinSp (words.drop (i + 1))).length ≤ mc)

/-- Feasibility of split index `i` as measured by the balance scan: the
first line is `len(" ".join(words[:i+1]))` and the second is measured as
`len(total_text)` minus that (counting the separating space). -/
def balFeasible (words : List Str) (mc i : Nat) : Bool :=
  joinAcc words (i + 1) ≤ mc && totalLen words - joinAcc words (i + 1) ≤ mc

/-- The balance objective of the balance scan at split index `i`:
`abs(first_line_length - second_line_length)` with the second line measured
as in the source (including the separating space). -/
def balValue (words : List Str) (i : Nat) : Nat :=
  natAbsDiff (joinAcc words (i + 1)) (totalLen words - joinAcc words (i + 1))

/-- Loop invariant of the balance scan: before index `i` is examined,
`(best, bb)` records the first best feasible index seen so far (or the
initial `(0, none)` when none was feasible yet). -/
def BalanceInv (words : List Str) (mc i best : Nat) (bb : Option Nat) : Prop :=
  (bb = none ∧ best = 0 ∧ ∀ t, t < i → balFeasible words mc t = false) ∨
  (∃ b, bb = some b ∧ balFeasible words mc best = true ∧ best < i ∧
    balValue words best = b ∧
    (∀ t, t < i → balFeasible words mc t = true → b ≤ balValue words t) ∧
    (∀ t, t < i → balFeasible words mc t = true → balValue words t = b → best ≤ t))

/-- What the balance scan returns: the first feasible index minimizing the
balance objective, or 0 when no index is feasible. -/
def BalanceOutcome (words : List Str) (mc r : Nat) : Prop :=
  (∀ j, j < words.length → balFeasible words mc j = true →
    balFeasible words mc r = true ∧ balValue words r ≤ balValue words j ∧
      (balValue words j = balValue words r → r ≤ j)) ∧
  ((∀ j, j < words.length → balFeasible words mc j = false) → r = 0)

/-- The two presentation invariants of a cue text: at most two lines, each
within the character budget. -/
def cueWithinLimits (seg : Str) (mc : Nat) : Prop :=
  (splitOnChar '\n' seg).length ≤ 2 ∧ ∀ l ∈ splitOnChar '\n' seg, l.length ≤ mc

instance (seg : Str) (mc : Nat) : Decidable (cueWithinLimits seg mc) := by
  unfold cueWithinLimits; infer_instance

/-! # Theorems -/

/-! ## C3: synthetic timestamps -/

theorem generate_timestamps_go_length (start : ℚ) (segs : List Str) :
    (generate_timestamps_go start segs).length = segs.length := by
  induction segs generalizing start with
  | nil => simp [generate_timestamps_go]
  | cons s rest ih => simp [generate_timestamps_go, ih]

theorem generate_timestamps_go_headD (start : ℚ) (s : Str) (rest : List Str) :
    ((generate_timestamps_go start (s :: rest)).getD 0 (0, 0)).1 = start := by
  simp [generate_timestamps_go]

theorem generate_timestamps_go_duration (segs : List Str) :
    ∀ (start : ℚ) (i : Nat), i < segs.length →
      ((generate_timestamps_go start segs).getD i (0, 0)).2 =
        ((generate_timestamps_go start segs).getD i (0, 0)).1
          + (wordCount (segs.getD i []) : ℚ) * (1 / 2) := by
  induction segs with
  | nil => intro start i h; simp at h
  | cons s rest ih =>
    intro start i h
    cases i with
    | zero => simp [generate_timestamps_go]
    | succ j =>
      have hj : j < rest.length := by simpa using h
      simpa [generate_timestamps_go] using ih _ j hj

theorem generate_timestamps_go_chain (segs : List Str) :
    ∀ (start : ℚ) (i : Nat), i + 1 < segs.length →
      ((generate_timestamps_go start segs).getD (i + 1) (0, 0)).1 =
        ((generate_timestamps_go start segs).getD i (0, 0)).2 := by
  induction segs with
  | nil => intro start i h; simp at h
  | cons s rest ih =>
    intro start i h
    cases i with
    | zero =>
      cases rest with
      | nil => simp at h
      | cons t rt =>
        simp [generate_timestamps_go]
    | succ j =>
      have hj : j + 1 < rest.length := by simpa using h
      simpa [generate_timestamps_go] using ih _ j hj

/-- C3: `TimestampGenerator.generate_timestamps` returns one interval per
segment; the first cue starts at time 0, each cue's duration is its word
count times 0.5 seconds, each cue starts exactly where the previous one
ended, and 3 cues of 4, 2 and 6 words get intervals (0,2), (2,3), (3,6). -/
theorem generate_timestamps_spec (segments : List Str) :
    (generate_timestamps segments).length = segments.length ∧
    (segments ≠ [] → ((generate_timestamps segments).getD 0 (0, 0)).1 = 0) ∧
    (∀ i, i < segments.length →
      ((generate_timestamps segments).getD i (0, 0)).2 =
        ((generate_timestamps segments).getD i (0, 0)).1
          + (wordCount (segments.getD i []) : ℚ) * (1 / 2)) ∧
    (∀ i, i + 1 < segments.length →
      ((generate_timestamps segments).getD (i + 1) (0, 0)).1 =
        ((generate_timestamps segments).getD i (0, 0)).2) ∧
    generate_timestamps
        [("w w w w").toList, ("w w").toList, ("w w w w w w").toList] =
      [(0, 2), (2, 3), (3, 6)] := by
  have hex : generate_timestamps
      [("w w w w").toList, ("w w").toList, ("w w w w w w").toList] =
      [(0, 2), (2, 3), (3, 6)] := by
    have h4 : wordCount (("w w w w").toList) = 4 := by decide
    have h2 : wordCount (("w w").toList) = 2 := by decide
    have h6 : wordCount (("w w w w w w").toList) = 6 := by decide
    simp only [generate_timestamps, generate_timestamps_go, h4, h2, h6]
    norm_num
  refine ⟨generate_timestamps_go_length 0 segments, ?_, ?_, ?_, hex⟩
  · intro h
    cases segments with
    | nil => exact absurd rfl h
    | cons s rest => exact generate_timestamps_go_headD 0 s rest
  · exact fun i hi => generate_timestamps_go_duration segments 0 i hi
  · exact fun i hi => generate_timestamps_go_chain segments 0 i hi

/-- Witness for C3 at a concrete input: two segments of 4 and 2 words. -/
theorem generate_timestamps_spec_witness :
    ((generate_timestamps [("a b c d").toList, ("e f").toList]).getD 1 (0, 0)).1 =
      ((generate_timestamps [("a b c d").toList, ("e f").toList]).getD 0 (0, 0)).2 :=
  (generate_timestamps_spec [("a b c d").toList, ("e f").toList]).2.2.2.1 0 (by decide)

/-! ## C4: the cue serializer -/

/-- C4: the claim that `Converter.format_srt` renders a timestamp line of
the form `HH:MM:SS,mmm --> HH:MM:SS,mmm` with exactly one blank line
between blocks is false: `format_srt_entry` interpolates the raw float
timestamps handed over by `generate_timestamps` (the module-level
`format_timestamp` is never called), and joining entries that already end
in two newlines with `"\n"` puts two blank lines between blocks. -/
theorem format_srt_raw_floats :
    format_srt [("Hello").toList] [(0, 2)] = ("1\n0.0 --> 2.0\nHello\n\n").toList ∧
    format_srt [("A").toList, ("B").toList] [(0, 2), (2, 3)] =
      ("1\n0.0 --> 2.0\nA\n\n\n2\n2.0 --> 3.0\nB\n\n").toList := by
  exact ⟨by decide, by decide⟩

/-! ## Helper lemmas about `strip` -/

theorem rstrip_eq_self_of_getLast (s : Str) (c : Char) (h : s.getLast? = some c)
    (hc : isPySpace c = false) : rstrip s = s := by
  have hrev : s.reverse.head? = some c := by
    rw [List.head?_reverse]; exact h
  obtain ⟨t, ht⟩ : ∃ t, s.reverse = c :: t := by
    cases hs : s.reverse with
    | nil => rw [hs] at hrev; simp at hrev
    | cons a t => rw [hs] at hrev; simp at hrev; exact ⟨t, by rw [hrev]⟩
  unfold rstrip
  rw [ht, List.dropWhile_cons_of_neg (by simp [hc]), ← ht, List.reverse_reverse]

theorem strip_getLast (s : Str) (c : Char) (h : s.getLast? = some c)
    (hc : isPySpace c = false) : (strip s).getLast? = some c := by
  have hlast : (lstrip s).getLast? = some c := by
    unfold lstrip
    have hsfx : s.dropWhile isPySpace <:+ s := List.dropWhile_suffix isPySpace
    obtain ⟨pre, hpre⟩ := hsfx
    have hne2 : s.dropWhile isPySpace ≠ [] := by
      intro hdrop
      have hcmem : c ∈ s := List.mem_of_getLast?_eq_some h
      have := List.dropWhile_eq_nil_iff.mp hdrop c hcmem
      rw [hc] at this; exact Bool.noConfusion this
    calc (s.dropWhile isPySpace).getLast?
        = (pre ++ s.dropWhile isPySpace).getLast? :=
          (List.getLast?_append_of_ne_nil pre hne2).symm
      _ = s.getLast? := by rw [hpre]
      _ = some c := h
  unfold strip
  rw [rstrip_eq_self_of_getLast _ c hlast hc]
  exact hlast

/-! ## C7: merging after sentence punctuation -/

/-- C7 counterexample: the claim that a cue ending in any of `. ? ! ; :` is
never merged forward is false — the combine routine only blocks on a
trailing period, so `"Ready?"` absorbs the following cue, both in
`_try_combine_segments` and through the whole post-processing pass. -/
theorem try_combine_merges_after_question_mark :
    try_combine_segments (("Ready?").toList) (("Go.").toList) 42 false =
      some (("Ready? Go.").toList) ∧
    endsSentencePunct (("Ready?").toList) = true ∧
    post_process_segments [("Ready?").toList, ("Go.").toList] 42 =
      [("Ready? Go.").toList] := by
  exact ⟨by decide, by decide, by decide⟩

/-- C7 amended: a cue whose stripped text ends in a period is never merged
forward by `_try_combine_segments` (the routine returns `None`); cues ending
in the other sentence punctuation marks `? ! ; :` are not protected. -/
theorem try_combine_none_after_period (s1 s2 : Str) (mc : Nat) (al : Bool)
    (h : endsWithChar '.' (strip s1) = true) :
    try_combine_segments s1 s2 mc al = none := by
  have h1 : ¬ (endsWithChar ':' s1 = true ∧ wordCount s1 = 1) := by
    rintro ⟨hc, -⟩
    have hlast : s1.getLast? = some ':' := by
      simpa [endsWithChar] using hc
    have hstrip : (strip s1).getLast? = some ':' :=
      strip_getLast s1 ':' hlast (by decide)
    rw [endsWithChar, hstrip] at h
    exact absurd h (by decide)
  unfold try_combine_segments
  rw [if_neg h1, if_pos h]

/-- Witness for C7's amended theorem at a concrete input. -/
theorem try_combine_none_after_period_witness :
    try_combine_segments (("Done.").toList) (("x").toList) 42 false = none :=
  try_combine_none_after_period (("Done.").toList) (("x").toList) 42 false (by decide)

/-! ## C6: the speaker-continuity sweep of the active pass -/

/-- C6 (evidence of the divergence): the active `_post_process_segments`
(the second definition, which shadows the first) performs no trailing-tag
stripping: a segment ending in the speaker tag pattern is returned
unchanged, with the tag still stranded at its end, even though a following
segment exists.  The stripping loop described by the spec exists only in
the shadowed first definition of `_post_process_segments`. -/
theorem post_process_keeps_trailing_tag :
    post_process_segments
        [("one two three Alice:").toList,
         ("hello world today friend extra more words here").toList] 42 =
      [("one two three Alice:").toList,
       ("hello world today friend extra more words here").toList] ∧
    endsWithChar ':' (("one two three Alice:").toList) = true := by
  exact ⟨by decide, by decide⟩

/-! ## C5: bare speaker tags in the final output -/

/-- C5 counterexample: a bare speaker tag of three words survives
`split_text` as a standalone segment even though a following segment with
content exists, because the merge of bare tags only fires for tags of at
most two words.  (`"Aa Bb Cc:"` matches the spec's speaker-tag pattern.) -/
theorem split_text_bare_tag_standalone :
    split_text (("Aa Bb Cc:\nthis sentence has quite many words here.").toList) =
      [("Aa Bb Cc:").toList,
       ("this sentence has quite many words here.").toList] ∧
    isBareSpeakerTag (("Aa Bb Cc:").toList) = true ∧
    wordCount (("Aa Bb Cc:").toList) = 3 := by
  exact ⟨by decide, by decide, by decide⟩

theorem firstPassGo_no_short_bare_tag (mc : Nat) :
    ∀ (fuel : Nat) (segs : List Str), segs.length ≤ fuel →
      ∀ i, i + 1 < (firstPassGo mc fuel segs).length →
        ¬ (endsWithChar ':' ((firstPassGo mc fuel segs).getD i []) = true ∧
           wordCount ((firstPassGo mc fuel segs).getD i []) ≤ 2) := by
  intro fuel
  induction fuel with
  | zero =>
    intro segs hlen i hi
    have : segs = [] := List.length_eq_zero.mp (Nat.le_zero.mp hlen)
    subst this
    simp [firstPassGo] at hi
  | succ fuel ih =>
    intro segs hlen i hi
    match segs, hlen with
    | [], _ => simp [firstPassGo] at hi
    | [x], _ => simp [firstPassGo] at hi
    | current :: next :: rest, hlen =>
      have hlen2 : rest.length + 1 ≤ fuel := by
        simp only [List.length_cons] at hlen; omega
      have hshape :
          (∃ z, firstPassGo mc (fuel + 1) (current :: next :: rest) =
            firstPassGo mc fuel (z :: rest)) ∨
          (¬ (endsWithChar ':' current = true ∧ wordCount current ≤ 2) ∧
            firstPassGo mc (fuel + 1) (current :: next :: rest) =
              current :: firstPassGo mc fuel (next :: rest)) := by
        by_cases h1 : endsWithChar ':' current = true ∧ wordCount current ≤ 2
        · exact Or.inl ⟨current ++ ' ' :: next, by
            simp only [firstPassGo]; rw [if_pos h1]⟩
        · by_cases h2 : wordCount next ≤ 2 ∨
              (endsWithChar '.' (strip next) = true ∧ wordCount next ≤ 4)
          · exact Or.inl ⟨_, by simp only [firstPassGo]; rw [if_neg h1, if_pos h2]⟩
          · exact Or.inr ⟨h1, by
              simp only [firstPassGo]; rw [if_neg h1, if_neg h2]⟩
      rcases hshape with ⟨z, hz⟩ | ⟨hn, hz⟩
      · rw [hz] at hi ⊢
        exact ih _ (by simp only [List.length_cons]; omega) i hi
      · rw [hz] at hi ⊢
        cases i with
        | zero => simpa using hn
        | succ j =>
          simp only [List.getD_cons_succ]
          simp only [List.length_cons] at hi
          exact ih _ (by simp only [List.length_cons]; omega) j (by omega)

/-- C5 amended: the unconditional merge of bare speaker tags operates only
on segments ending in `':'` with at most two whitespace-separated words (the
code's condition); after the first pass of the active
`_post_process_segments`, no segment with a following segment is such a
short bare tag.  Bare tags of three or more words (still speaker tags per
the spec's pattern) can remain standalone, as the counterexample shows. -/
theorem firstPass_merges_short_bare_tags (mc : Nat) (segs : List Str) (i : Nat)
    (h : i + 1 < (firstPass mc segs).length) :
    ¬ (endsWithChar ':' ((firstPass mc segs).getD i []) = true ∧
       wordCount ((firstPass mc segs).getD i []) ≤ 2) :=
  firstPassGo_no_short_bare_tag mc (segs.length + 1) segs (Nat.le_succ _) i h

/-- Witness for C5's amended theorem at a concrete input (a one-word bare
tag followed by content is merged, leaving no short bare-tag segment). -/
theorem firstPass_merges_short_bare_tags_witness :
    ¬ (endsWithChar ':'
         ((firstPass 42 [("hello there.").toList,
            ("one two three four five six seven").toList]).getD 0 []) = true ∧
       wordCount
         ((firstPass 42 [("hello there.").toList,
            ("one two three four five six seven").toList]).getD 0 []) ≤ 2) :=
  firstPass_merges_short_bare_tags 42
    [("hello there.").toList, ("one two three four five six seven").toList] 0
    (by decide)

/-! ## C1: the line/character limits of the full pipeline -/

/-- C1 counterexample: an input whose tokens are all well within
`max_chars = 42` for which `split_text` emits a cue whose second line is 44
characters long.  The post-processing first pass absorbs the short segment
`"zz"` into a two-line segment whose combined text exceeds `2 * max_chars`,
and the balanced-rebuild loop then keeps its default midpoint split, which
overflows the budget; no later pass repairs it, and no hard-chunking of any
kind occurs (no token exceeds `max_chars`). -/
theorem split_text_line_exceeds_budget :
    split_text (("abcdef abcdef abcdef abcdef abcdef abcdef abcdef abcdef abcdef abcdef abcdef abcdef\nzz").toList) =
      [("abcdef abcdef abcdef abcdef abcdef abcdef\nabcdef abcdef abcdef abcdef abcdef abcdef zz").toList] ∧
    (splitOnChar '\n'
        (("abcdef abcdef abcdef abcdef abcdef abcdef\nabcdef abcdef abcdef abcdef abcdef abcdef zz").toList)).map
        List.length = [41, 44] ∧
    ¬ cueWithinLimits
        (("abcdef abcdef abcdef abcdef abcdef abcdef\nabcdef abcdef abcdef abcdef abcdef abcdef zz").toList) 42 ∧
    (pySplit (("abcdef abcdef abcdef abcdef abcdef abcdef abcdef abcdef abcdef abcdef abcdef abcdef\nzz").toList)).all
      (fun w => w.length ≤ 42) = true := by
  exact ⟨by decide, by decide, by decide, by decide⟩

/-! ## C10: the missing `_enforce_character_limit` method -/

theorem callEnforceCharacterLimit_eq :
    callEnforceCharacterLimit = Except.error PyError.attributeError := rfl

theorem processSegmentsAudio_cons (seg : SrtSegment) (rest : List SrtSegment) :
    processSegmentsAudio (seg :: rest) = Except.error PyError.attributeError := by
  simp [processSegmentsAudio, callEnforceCharacterLimit_eq]

theorem extractSegments_eq_nil_iff (results : List RecognitionResult) :
    extractSegments results = [] ↔ ∀ r ∈ results, utteranceSurvives r = false := by
  induction results with
  | nil => simp [extractSegments]
  | cons r rest ih =>
    cases halt : r.alternatives with
    | nil =>
      have hU : utteranceSurvives r = false := by simp [utteranceSurvives, halt]
      have hE : extractSegments (r :: rest) = extractSegments rest := by
        simp [extractSegments, halt]
      rw [hE, ih]
      simp [List.forall_mem_cons, hU]
    | cons alt alts =>
      by_cases ht : strip alt.transcript = []
      · have hU : utteranceSurvives r = false := by
          simp [utteranceSurvives, halt, ht]
        have hE : extractSegments (r :: rest) = extractSegments rest := by
          simp [extractSegments, halt, ht]
        rw [hE, ih]
        simp [List.forall_mem_cons, hU]
      · cases hw : alt.words with
        | nil =>
          have hU : utteranceSurvives r = false := by
            simp [utteranceSurvives, halt, ht, hw]
          have hE : extractSegments (r :: rest) = extractSegments rest := by
            simp [extractSegments, halt, ht, hw]
          rw [hE, ih]
          simp [List.forall_mem_cons, hU]
        | cons w ws =>
          have hU : utteranceSurvives r = true := by
            simp [utteranceSurvives, halt, ht, hw]
          have hE : extractSegments (r :: rest) =
              { text := strip alt.transcript, start_time := w.start_time,
                end_time := (alt.words.getLastD w).end_time } :: extractSegments rest := by
            simp [extractSegments, halt, ht, hw]
          rw [hE]
          simp [List.forall_mem_cons, hU]

/-- C10: `class TextProcessor` defines no `_enforce_character_limit`, so any
call of `AudioProcessor.convert_to_srt` (or the identical method in
`web/app.py`) whose recognition results contain at least one utterance with
a non-empty transcript and a non-empty word list raises `AttributeError`
before writing anything; when every utterance is filtered out the call
completes and writes an empty file. -/
theorem convert_to_srt_missing_method (results : List RecognitionResult) :
    ((∃ r ∈ results, utteranceSurvives r = true) →
       convert_to_srt results = Except.error PyError.attributeError) ∧
    ((∀ r ∈ results, utteranceSurvives r = false) →
       convert_to_srt results = Except.ok []) := by
  constructor
  · rintro ⟨r, hr, hs⟩
    have hne : extractSegments results ≠ [] := by
      intro hnil
      have := (extractSegments_eq_nil_iff results).mp hnil r hr
      rw [hs] at this
      exact Bool.noConfusion this
    unfold convert_to_srt
    cases hext : extractSegments results with
    | nil => exact absurd hext hne
    | cons seg rest => rw [processSegmentsAudio_cons]
  · intro hall
    have hnil : extractSegments results = [] :=
      (extractSegments_eq_nil_iff results).mpr hall
    unfold convert_to_srt
    rw [hnil]
    rfl

/-- Witness for C10 at concrete inputs: one surviving utterance errors, an
utterance list that is entirely filtered out writes the empty file. -/
theorem convert_to_srt_missing_method_witness :
    convert_to_srt
        [⟨[⟨("hi there").toList, [⟨("hi").toList, 1, 2⟩]⟩]⟩] =
      Except.error PyError.attributeError ∧
    convert_to_srt [⟨[]⟩, ⟨[⟨("hi").toList, []⟩]⟩] = Except.ok [] := by
  constructor
  · exact (convert_to_srt_missing_method _).1
      ⟨⟨[⟨("hi there").toList, [⟨("hi").toList, 1, 2⟩]⟩]⟩, by
        simp, by decide⟩
  · exact (convert_to_srt_missing_method _).2 (by decide)

/-! ## C9: referential transparency / statelessness -/

theorem runSplitCalls_eq (st : TextProcessorState) (inputs : List Str) :
    runSplitCalls st inputs = (inputs.map split_text, st) := by
  induction inputs with
  | nil => rfl
  | cons t rest ih => simp [runSplitCalls, split_textM, ih]

theorem runTimestampCalls_eq (st : TimestampGeneratorState)
    (inputs : List (List Str)) :
    runTimestampCalls st inputs = (inputs.map generate_timestamps, st) := by
  induction inputs with
  | nil => rfl
  | cons t rest ih => simp [runTimestampCalls, generate_timestampsM, ih]

/-- C9: the segmentation engine is referentially transparent and stateless:
in any sequence of `split_text` (resp. `generate_timestamps`) calls against
an instance, each output depends only on that call's input, the instance
state is unchanged, and two instances given the same inputs — regardless of
their prior call histories — produce the same outputs. -/
theorem engine_referentially_transparent
    (st st2 : TextProcessorState) (tst tst2 : TimestampGeneratorState)
    (inputs : List Str) (tinputs : List (List Str)) :
    (∀ i, i < inputs.length →
       (runSplitCalls st inputs).1.getD i [] = split_text (inputs.getD i [])) ∧
    (runSplitCalls st inputs).2 = st ∧
    (runSplitCalls st inputs).1 = (runSplitCalls st2 inputs).1 ∧
    (∀ i, i < tinputs.length →
       (runTimestampCalls tst tinputs).1.getD i [] =
         generate_timestamps (tinputs.getD i [])) ∧
    (runTimestampCalls tst tinputs).2 = tst ∧
    (runTimestampCalls tst tinputs).1 = (runTimestampCalls tst2 tinputs).1 := by
  refine ⟨?_, ?_, ?_, ?_, ?_, ?_⟩
  · intro i hi
    rw [runSplitCalls_eq]
    simp only []
    rw [List.getD_eq_getElem?_getD, List.getElem?_map,
      List.getD_eq_getElem?_getD]
    cases hx : inputs[i]? with
    | none => simp [List.getElem?_eq_none_iff] at hx; omega
    | some x => simp
  · rw [runSplitCalls_eq]
  · simp [runSplitCalls_eq]
  · intro i hi
    rw [runTimestampCalls_eq]
    simp only []
    rw [List.getD_eq_getElem?_getD, List.getElem?_map,
      List.getD_eq_getElem?_getD]
    cases hx : tinputs[i]? with
    | none => simp [List.getElem?_eq_none_iff] at hx; omega
    | some x => simp
  · rw [runTimestampCalls_eq]
  · simp [runTimestampCalls_eq]

/-- Witness for C9 at a concrete call history. -/
theorem engine_referentially_transparent_witness :
    (runSplitCalls ⟨⟩ [("hi").toList]).1.getD 0 [] =
      split_text (([("hi").toList] : List Str).getD 0 []) :=
  (engine_referentially_transparent ⟨⟩ ⟨⟩ ⟨⟩ ⟨⟩ [("hi").toList] []).1 0
    (by decide)

/-! ## C8: the line breaker's choice of split point -/

/-- C8 counterexample.  First word list: the only split with both actual
lines within the budget is index 1 (lines of 40 and 42 characters), but the
balance scan measures the second line with its leading space (43 > 42),
rejects every index and returns the default 0, whose second line is 72
characters.  Second word list: index 0 is a sentence-punctuation split with
both lines within the budget, but the punctuation scan only considers
interior indices `0 < i < len-1`, so the code returns the balance choice 2
instead of 0. -/
theorem find_optimal_break_point_counterexample :
    find_optimal_break_point
        [("aaaaaaaaaa").toList, ("bbbbbbbbbbbbbbbbbbbbbbbbbbbbb").toList,
         ("cccccccccccccccccccccccccccccccccccccccccc").toList] 42 = 0 ∧
    (joinSp (([("aaaaaaaaaa").toList, ("bbbbbbbbbbbbbbbbbbbbbbbbbbbbb").toList,
        ("cccccccccccccccccccccccccccccccccccccccccc").toList] : List Str).take 2)).length = 40 ∧
    (joinSp (([("aaaaaaaaaa").toList, ("bbbbbbbbbbbbbbbbbbbbbbbbbbbbb").toList,
        ("cccccccccccccccccccccccccccccccccccccccccc").toList] : List Str).drop 2)).length = 42 ∧
    (joinSp (([("aaaaaaaaaa").toList, ("bbbbbbbbbbbbbbbbbbbbbbbbbbbbb").toList,
        ("cccccccccccccccccccccccccccccccccccccccccc").toList] : List Str).drop 1)).length = 72 ∧
    find_optimal_break_point
        [("A?").toList, ("bb").toList, ("cc").toList, ("dd").toList,
         ("ee").toList] 42 = 2 ∧
    endsWithChar '?' (("A?").toList) = true ∧
    (joinSp (([("A?").toList, ("bb").toList, ("cc").toList, ("dd").toList,
        ("ee").toList] : List Str).take 1)).length = 2 ∧
    (joinSp (([("A?").toList, ("bb").toList, ("cc").toList, ("dd").toList,
        ("ee").toList] : List Str).drop 1)).length = 11 := by
  refine ⟨by decide, by decide, by decide, by decide, by decide, by decide,
    by decide, by decide⟩

theorem isCodePunctBreak_eq_true_iff (words : List Str) (mc i : Nat) :
    isCodePunctBreak words mc i = true ↔
      (0 < i ∧ i < words.length - 1) ∧
      (endsWithChar '.' (words.getD i []) || endsWithChar '?' (words.getD i []) ||
        endsWithChar '!' (words.getD i []) || endsWithChar ';' (words.getD i []) ||
        endsWithChar ':' (words.getD i [])) = true ∧
      ((joinSp (words.take (i + 1))).length ≤ mc ∧
        (joinSp (words.drop (i + 1))).length ≤ mc) := by
  unfold isCodePunctBreak
  simp only [Bool.and_eq_true, decide_eq_true_eq]
  tauto

theorem isCodePunctBreak_false_of_ge (words : List Str) (mc t : Nat)
    (h : words.length - 1 ≤ t) : isCodePunctBreak words mc t = false := by
  rw [Bool.eq_false_iff]
  intro hc
  have := ((isCodePunctBreak_eq_true_iff words mc t).mp hc).1
  omega

theorem punctScanGo_some (words : List Str) (mc : Nat) :
    ∀ (fuel i j : Nat), punctScanGo fuel words mc i = some j →
      isCodePunctBreak words mc j = true ∧ i ≤ j ∧
        ∀ t, i ≤ t → t < j → isCodePunctBreak words mc t = false := by
  intro fuel
  induction fuel with
  | zero => intro i j h; simp [punctScanGo] at h
  | succ fuel ih =>
    intro i j h
    by_cases hi : i < words.length
    · rw [punctScanGo, if_pos hi] at h
      by_cases hint : 0 < i ∧ i < words.length - 1
      · rw [if_pos hint] at h
        by_cases hpunct : (endsWithChar '.' (words.getD i []) ||
            endsWithChar '?' (words.getD i []) || endsWithChar '!' (words.getD i []) ||
            endsWithChar ';' (words.getD i []) || endsWithChar ':' (words.getD i [])) = true
        · rw [if_pos hpunct] at h
          by_cases hfit : (joinSp (words.take (i + 1))).length ≤ mc ∧
              (joinSp (words.drop (i + 1))).length ≤ mc
          · rw [if_pos hfit] at h
            injection h with h
            subst h
            refine ⟨?_, Nat.le_refl i,
              fun t h1 h2 => absurd (Nat.lt_of_le_of_lt h1 h2) (Nat.lt_irrefl i)⟩
            exact (isCodePunctBreak_eq_true_iff words mc i).mpr ⟨hint, hpunct, hfit⟩
          · rw [if_neg hfit] at h
            obtain ⟨hj, hij, hall⟩ := ih (i + 1) j h
            refine ⟨hj, Nat.le_of_succ_le hij, fun t h1 h2 => ?_⟩
            rcases Nat.eq_or_lt_of_le h1 with rfl | h1
            · rw [Bool.eq_false_iff]
              intro hc
              exact hfit ((isCodePunctBreak_eq_true_iff words mc i).mp hc).2.2
            · exact hall t h1 h2
        · rw [if_neg hpunct] at h
          obtain ⟨hj, hij, hall⟩ := ih (i + 1) j h
          refine ⟨hj, Nat.le_of_succ_le hij, fun t h1 h2 => ?_⟩
          rcases Nat.eq_or_lt_of_le h1 with rfl | h1
          · rw [Bool.eq_false_iff]
            intro hc
            exact hpunct ((isCodePunctBreak_eq_true_iff words mc i).mp hc).2.1
          · exact hall t h1 h2
      · rw [if_neg hint] at h
        obtain ⟨hj, hij, hall⟩ := ih (i + 1) j h
        refine ⟨hj, Nat.le_of_succ_le hij, fun t h1 h2 => ?_⟩
        rcases Nat.eq_or_lt_of_le h1 with rfl | h1
        · rw [Bool.eq_false_iff]
          intro hc
          exact hint ((isCodePunctBreak_eq_true_iff words mc i).mp hc).1
        · exact hall t h1 h2
    · rw [punctScanGo, if_neg hi] at h
      exact absurd h (by simp)

theorem punctScanGo_none (words : List Str) (mc : Nat) :
    ∀ (fuel i : Nat), words.length - i ≤ fuel →
      punctScanGo fuel words mc i = none →
      ∀ t, i ≤ t → isCodePunctBreak words mc t = false := by
  intro fuel
  induction fuel with
  | zero =>
    intro i hfuel _ t ht
    exact isCodePunctBreak_false_of_ge words mc t (by omega)
  | succ fuel ih =>
    intro i hfuel h t ht
    by_cases hi : i < words.length
    · rw [punctScanGo, if_pos hi] at h
      by_cases hint : 0 < i ∧ i < words.length - 1
      · rw [if_pos hint] at h
        by_cases hpunct : (endsWithChar '.' (words.getD i []) ||
            endsWithChar '?' (words.getD i []) || endsWithChar '!' (words.getD i []) ||
            endsWithChar ';' (words.getD i []) || endsWithChar ':' (words.getD i [])) = true
        · rw [if_pos hpunct] at h
          by_cases hfit : (joinSp (words.take (i + 1))).length ≤ mc ∧
              (joinSp (words.drop (i + 1))).length ≤ mc
          · rw [if_pos hfit] at h; exact absurd h (by simp)
          · rw [if_neg hfit] at h
            rcases Nat.eq_or_lt_of_le ht with rfl | ht2
            · rw [Bool.eq_false_iff]
              intro hc
              exact hfit ((isCodePunctBreak_eq_true_iff words mc i).mp hc).2.2
            · exact ih (i + 1) (by omega) h t ht2
        · rw [if_neg hpunct] at h
          rcases Nat.eq_or_lt_of_le ht with rfl | ht2
          · rw [Bool.eq_false_iff]
            intro hc
            exact hpunct ((isCodePunctBreak_eq_true_iff words mc i).mp hc).2.1
          · exact ih (i + 1) (by omega) h t ht2
      · rw [if_neg hint] at h
        rcases Nat.eq_or_lt_of_le ht with rfl | ht2
        · rw [Bool.eq_false_iff]
          intro hc
          exact hint ((isCodePunctBreak_eq_true_iff words mc i).mp hc).1
        · exact ih (i + 1) (by omega) h t ht2
    · exact isCodePunctBreak_false_of_ge words mc t (by omega)

theorem joinSp_append (l1 l2 : List Str) (h1 : l1 ≠ []) (h2 : l2 ≠ []) :
    joinSp (l1 ++ l2) = joinSp l1 ++ ' ' :: joinSp l2 := by
  induction l1 with
  | nil => exact absurd rfl h1
  | cons a t ih =>
    cases t with
    | nil =>
      cases l2 with
      | nil => exact absurd rfl h2
      | cons b u => simp [joinSp]
    | cons b u =>
      have hstep := ih (by simp)
      simp only [List.cons_append] at hstep
      have e1 : joinSp (a :: (b :: (u ++ l2))) = a ++ ' ' :: joinSp (b :: (u ++ l2)) := rfl
      have e2 : joinSp (a :: b :: u) = a ++ ' ' :: joinSp (b :: u) := rfl
      simp only [List.cons_append, e1, hstep, e2, List.append_assoc]

theorem take_ne_nil_of_pos (words : List Str) (i : Nat) (h0 : 0 < i)
    (h : 0 < words.length) : words.take i ≠ [] := by
  intro hc
  have := congrArg List.length hc
  simp only [List.length_take, List.length_nil] at this
  omega

theorem joinAcc_succ (words : List Str) (i : Nat) (h : i < words.length) :
    joinAcc words (i + 1) =
      (if i > 0 then joinAcc words i + 1 else joinAcc words i) +
        (words.getD i []).length := by
  unfold joinAcc
  rw [List.take_succ, List.getElem?_eq_getElem h]
  simp only [Option.toList_some]
  rw [List.getD_eq_getElem?_getD, List.getElem?_eq_getElem h]
  by_cases h0 : i > 0
  · rw [if_pos h0,
      joinSp_append _ _ (take_ne_nil_of_pos words i h0 (by omega)) (by simp)]
    simp [joinSp]
    omega
  · rw [if_neg h0]
    have : i = 0 := by omega
    subst this
    simp [joinSp]

theorem totalLen_split (words : List Str) (i : Nat) (h1 : 0 < i)
    (h2 : i < words.length) :
    totalLen words = joinAcc words i + 1 + (joinSp (words.drop i)).length := by
  unfold totalLen joinAcc
  conv_lhs => rw [← List.take_append_drop i words]
  rw [joinSp_append _ _ (take_ne_nil_of_pos words i h1 (by omega))
    (by simp [List.drop_eq_nil_iff]; omega)]
  simp
  omega

theorem balFeasible_iff (words : List Str) (mc i : Nat) :
    balFeasible words mc i = true ↔
      (joinAcc words (i + 1) ≤ mc ∧
        totalLen words - joinAcc words (i + 1) ≤ mc) := by
  simp [balFeasible, Bool.and_eq_true, decide_eq_true_eq]

theorem stepLen_joinAcc (words : List Str) (i : Nat) (h : i < words.length) :
    stepLen i (joinAcc words i) words[i].length = joinAcc words (i + 1) := by
  rw [joinAcc_succ words i h, stepLen]
  congr 1
  rw [List.getD_eq_getElem?_getD, List.getElem?_eq_getElem h]
  rfl

theorem balanceScanGo_correct (words : List Str) (mc : Nat) :
    ∀ (k i best : Nat) (bb : Option Nat),
      i + k = words.length →
      BalanceInv words mc i best bb →
      BalanceOutcome words mc
        (balanceScanGo (totalLen words) mc (words.drop i) i (joinAcc words i)
          best bb) := by
  intro k
  induction k with
  | zero =>
    intro i best bb hk hinv
    have hi : i = words.length := by omega
    subst hi
    rw [List.drop_length]
    show BalanceOutcome words mc best
    rcases hinv with ⟨-, hbest, hall⟩ | ⟨b, -, hfeas, hlt, hval, hmin, htie⟩
    · constructor
      · intro j hj hfj
        exact absurd hfj (by simp [hall j hj])
      · intro _
        exact hbest
    · subst hval
      constructor
      · intro j hj hfj
        exact ⟨hfeas, hmin j hj hfj, fun he => htie j hj hfj he⟩
      · intro hnone
        exact absurd hfeas (by simp [hnone best hlt])
  | succ k ih =>
    intro i best bb hk hinv
    have hi : i < words.length := by omega
    rw [List.drop_eq_getElem_cons hi, balanceScanGo,
      stepLen_joinAcc words i hi]
    have hbal : natAbsDiff (joinAcc words (i + 1))
        (totalLen words - joinAcc words (i + 1)) = balValue words i := rfl
    rw [hbal]
    by_cases hfeas : joinAcc words (i + 1) ≤ mc ∧
        totalLen words - joinAcc words (i + 1) ≤ mc
    · rw [if_pos hfeas]
      have hfi : balFeasible words mc i = true := (balFeasible_iff words mc i).mpr hfeas
      rcases hinv with ⟨hbb, hbest, hall⟩ | ⟨b, hbb, hfeasb, hlt, hval, hmin, htie⟩
      · subst hbb
        rw [if_pos (by simp [betterThan])]
        refine ih (i + 1) i (some (balValue words i)) (by omega) ?_
        refine Or.inr ⟨balValue words i, rfl, hfi, Nat.lt_succ_self i, rfl, ?_, ?_⟩
        · intro t ht hft
          rcases Nat.lt_succ_iff_lt_or_eq.mp ht with ht2 | rfl
          · exact absurd hft (by simp [hall t ht2])
          · exact Nat.le_refl _
        · intro t ht hft _
          rcases Nat.lt_succ_iff_lt_or_eq.mp ht with ht2 | rfl
          · exact absurd hft (by simp [hall t ht2])
          · exact Nat.le_refl _
      · subst hbb
        subst hval
        by_cases hcmp : balValue words i < balValue words best
        · rw [if_pos (by simp [betterThan, hcmp])]
          refine ih (i + 1) i (some (balValue words i)) (by omega) ?_
          refine Or.inr ⟨balValue words i, rfl, hfi, Nat.lt_succ_self i, rfl, ?_, ?_⟩
          · intro t ht hft
            rcases Nat.lt_succ_iff_lt_or_eq.mp ht with ht2 | rfl
            · exact Nat.le_trans (Nat.le_of_lt hcmp) (hmin t ht2 hft)
            · exact Nat.le_refl _
          · intro t ht hft hte
            rcases Nat.lt_succ_iff_lt_or_eq.mp ht with ht2 | rfl
            · exact absurd hte (by
                have := hmin t ht2 hft
                omega)
            · exact Nat.le_refl _
        · rw [if_neg (by simp [betterThan, hcmp])]
          refine ih (i + 1) best (some (balValue words best)) (by omega) ?_
          refine Or.inr ⟨balValue words best, rfl, hfeasb,
            Nat.lt_succ_of_lt hlt, rfl, ?_, ?_⟩
          · intro t ht hft
            rcases Nat.lt_succ_iff_lt_or_eq.mp ht with ht2 | rfl
            · exact hmin t ht2 hft
            · omega
          · intro t ht hft hte
            rcases Nat.lt_succ_iff_lt_or_eq.mp ht with ht2 | rfl
            · exact htie t ht2 hft hte
            · exact Nat.le_of_lt hlt
    · rw [if_neg hfeas]
      have hfi : balFeasible words mc i = false := by
        rw [Bool.eq_false_iff]
        intro hc
        exact hfeas ((balFeasible_iff words mc i).mp hc)
      rcases hinv with ⟨hbb, hbest, hall⟩ | ⟨b, hbb, hfeasb, hlt, hval, hmin, htie⟩
      · subst hbb
        refine ih (i + 1) best none (by omega) (Or.inl ⟨rfl, hbest, ?_⟩)
        intro t ht
        rcases Nat.lt_succ_iff_lt_or_eq.mp ht with ht2 | rfl
        · exact hall t ht2
        · exact hfi
      · subst hbb
        subst hval
        refine ih (i + 1) best (some (balValue words best)) (by omega) ?_
        refine Or.inr ⟨balValue words best, rfl, hfeasb,
          Nat.lt_succ_of_lt hlt, rfl, ?_, ?_⟩
        · intro t ht hft
          rcases Nat.lt_succ_iff_lt_or_eq.mp ht with ht2 | rfl
          · exact hmin t ht2 hft
          · exact absurd hft (by simp [hfi])
        · intro t ht hft hte
          rcases Nat.lt_succ_iff_lt_or_eq.mp ht with ht2 | rfl
          · exact htie t ht2 hft hte
          · exact absurd hft (by simp [hfi])

/-- C8 amended: `_find_optimal_break_point` prefers the first *interior*
index (`0 < i < len(words)-1`) whose word ends in `. ? ! ; :` with both
joined lines within `max_chars`; when no such index exists it returns the
first index minimizing `abs(len(line1) - (len(line2) + 1))` subject to
`len(line1) ≤ max_chars` and `len(line2) + 1 ≤ max_chars` (the balance scan
measures the second line together with its separating space), and 0 when no
index qualifies. -/
theorem find_optimal_break_point_characterization (words : List Str) (mc : Nat) :
    (∀ j, isCodePunctBreak words mc j = true →
       (∀ t, t < j → isCodePunctBreak words mc t = false) →
       find_optimal_break_point words mc = j) ∧
    ((∀ t, t < words.length → isCodePunctBreak words mc t = false) →
       BalanceOutcome words mc (find_optimal_break_point words mc)) := by
  cases hscan : punctScanGo (words.length + 1) words mc 0 with
  | some j2 =>
    have heq : find_optimal_break_point words mc = j2 := by
      unfold find_optimal_break_point
      rw [hscan]
    obtain ⟨hj2, -, hall2⟩ := punctScanGo_some words mc _ 0 j2 hscan
    constructor
    · intro j hj hfirst
      rw [heq]
      rcases Nat.lt_trichotomy j2 j with hlt | rfl | hgt
      · exact absurd hj2 (by simp [hfirst j2 hlt])
      · rfl
      · exact absurd hj (by simp [hall2 j (Nat.zero_le j) hgt])
    · intro hallpunct
      have hlen : j2 < words.length := by
        have := ((isCodePunctBreak_eq_true_iff words mc j2).mp hj2).1
        omega
      exact absurd hj2 (by simp [hallpunct j2 hlen])
  | none =>
    have hnone := punctScanGo_none words mc (words.length + 1) 0 (by omega) hscan
    have heq : find_optimal_break_point words mc =
        balanceScanGo (totalLen words) mc (words.drop 0) 0 (joinAcc words 0)
          0 none := by
      unfold find_optimal_break_point
      rw [hscan]
      rfl
    constructor
    · intro j hj _
      exact absurd hj (by simp [hnone j (Nat.zero_le j)])
    · intro _
      rw [heq]
      exact balanceScanGo_correct words mc words.length 0 0 none (by omega)
        (Or.inl ⟨rfl, rfl, fun t ht => absurd ht (Nat.not_lt_zero t)⟩)

/-- Witness for C8's amended theorem: a word list with an interior
punctuation break, and a word list with no punctuation break at all. -/
theorem find_optimal_break_point_characterization_witness :
    find_optimal_break_point
        [("aa").toList, ("b.").toList, ("cc").toList, ("dd").toList] 42 = 1 ∧
    BalanceOutcome
      [("aa").toList, ("bb").toList, ("cc").toList] 42
      (find_optimal_break_point
        [("aa").toList, ("bb").toList, ("cc").toList] 42) := by
  constructor
  · exact (find_optimal_break_point_characterization
      [("aa").toList, ("b.").toList, ("cc").toList, ("dd").toList] 42).1 1
      (by decide) (by decide)
  · exact (find_optimal_break_point_characterization
      [("aa").toList, ("bb").toList, ("cc").toList] 42).2 (by decide)

/-- Shared helper: when `_find_optimal_break_point` returns a positive
index, both joined lines at that index fit `max_chars`. -/
theorem find_optimal_pos_fits (words : List Str) (mc : Nat)
    (h : 0 < find_optimal_break_point words mc) :
    (joinSp (words.take (find_optimal_break_point words mc + 1))).length ≤ mc ∧
    (joinSp (words.drop (find_optimal_break_point words mc + 1))).length ≤ mc := by
  cases hscan : punctScanGo (words.length + 1) words mc 0 with
  | some j =>
    have heq : find_optimal_break_point words mc = j := by
      unfold find_optimal_break_point
      rw [hscan]
    obtain ⟨hj, -, -⟩ := punctScanGo_some words mc _ 0 j hscan
    rw [heq]
    exact ((isCodePunctBreak_eq_true_iff words mc j).mp hj).2.2
  | none =>
    have heq : find_optimal_break_point words mc =
        balanceScanGo (totalLen words) mc (words.drop 0) 0 (joinAcc words 0)
          0 none := by
      unfold find_optimal_break_point
      rw [hscan]
      rfl
    have houtcome : BalanceOutcome words mc (find_optimal_break_point words mc) := by
      rw [heq]
      exact balanceScanGo_correct words mc words.length 0 0 none (by omega)
        (Or.inl ⟨rfl, rfl, fun t ht => absurd ht (Nat.not_lt_zero t)⟩)
    by_cases hallinf : ∀ j, j < words.length → balFeasible words mc j = false
    · exact absurd (houtcome.2 hallinf) (by omega)
    · push_neg at hallinf
      obtain ⟨j, hj, hfj⟩ := hallinf
      have hfj2 : balFeasible words mc j = true := by
        cases hx : balFeasible words mc j with
        | false => exact absurd hx hfj
        | true => rfl
      obtain ⟨hfr, -, -⟩ := houtcome.1 j hj hfj2
      obtain ⟨hfr1, hfr2⟩ := (balFeasible_iff words mc _).mp hfr
      refine ⟨hfr1, ?_⟩
      by_cases hr1 : find_optimal_break_point words mc + 1 < words.length
      · have hsplit := totalLen_split words (find_optimal_break_point words mc + 1)
          (by omega) hr1
        unfold joinAcc at hsplit hfr1 hfr2
        omega
      · rw [List.drop_eq_nil_of_le (by omega)]
        simp [joinSp]

/-! ## Helper lemmas about `splitOnChar`, `pySplit` and `joinSp` -/

theorem splitOnChar_cons (sep c : Char) (s : Str) :
    splitOnChar sep (c :: s) =
      match splitOnChar sep s with
      | [] => [[c]]
      | h :: t => if c = sep then [] :: h :: t else (c :: h) :: t := rfl

theorem splitOnChar_ne_nil (sep : Char) (s : Str) : splitOnChar sep s ≠ [] := by
  induction s with
  | nil => simp [splitOnChar]
  | cons c t ih =>
    rw [splitOnChar_cons]
    cases h : splitOnChar sep t with
    | nil => simp
    | cons a b =>
      by_cases hc : c = sep
      · simp [hc]
      · simp [hc]

theorem splitOnChar_of_not_mem (sep : Char) (s : Str) (h : sep ∉ s) :
    splitOnChar sep s = [s] := by
  induction s with
  | nil => rfl
  | cons c t ih =>
    have hc : c ≠ sep := fun he => h (he ▸ List.mem_cons_self c t)
    have ht : sep ∉ t := fun hm => h (List.mem_cons_of_mem c hm)
    rw [splitOnChar_cons, ih ht]
    simp [hc]

theorem splitOnChar_append_sep (sep : Char) (a b : Str) (ha : sep ∉ a) :
    splitOnChar sep (a ++ sep :: b) = a :: splitOnChar sep b := by
  induction a with
  | nil =>
    simp only [List.nil_append]
    rw [splitOnChar_cons]
    cases h : splitOnChar sep b with
    | nil => exact absurd h (splitOnChar_ne_nil sep b)
    | cons x y => simp
  | cons c t ih =>
    have hc : c ≠ sep := fun he => ha (he ▸ List.mem_cons_self c t)
    have ht : sep ∉ t := fun hm => ha (List.mem_cons_of_mem c hm)
    simp only [List.cons_append]
    rw [splitOnChar_cons, ih ht]
    simp [hc]

theorem splitOnChar_pair (sep : Char) (a b : Str) (ha : sep ∉ a) (hb : sep ∉ b) :
    splitOnChar sep (a ++ sep :: b) = [a, b] := by
  rw [splitOnChar_append_sep sep a b ha, splitOnChar_of_not_mem sep b hb]

theorem splitWsRaw_ne_nil (s : Str) : splitWsRaw s ≠ [] := by
  induction s with
  | nil => simp [splitWsRaw]
  | cons c t ih =>
    show (match splitWsRaw t with
      | [] => [[c]]
      | h :: tt => if isPySpace c then [] :: h :: tt else (c :: h) :: tt) ≠ []
    cases h : splitWsRaw t with
    | nil => simp
    | cons a b =>
      by_cases hc : isPySpace c
      · simp [hc]
      · simp [hc]

theorem splitWsRaw_chars (s : Str) :
    ∀ w ∈ splitWsRaw s, ∀ c ∈ w, isPySpace c = false := by
  induction s with
  | nil =>
    intro w hw c hc
    simp [splitWsRaw] at hw
    subst hw
    simp at hc
  | cons d t ih =>
    intro w hw c hc
    have hstep : splitWsRaw (d :: t) =
        (match splitWsRaw t with
         | [] => [[d]]
         | h :: tt => if isPySpace d then [] :: h :: tt else (d :: h) :: tt) := rfl
    rw [hstep] at hw
    cases hsp : splitWsRaw t with
    | nil => exact absurd hsp (splitWsRaw_ne_nil t)
    | cons a b =>
      rw [hsp] at hw
      have hw' : w ∈ (if isPySpace d then ([] : Str) :: a :: b
          else (d :: a) :: b) := hw
      by_cases hd : isPySpace d
      · rw [if_pos hd] at hw'
        rcases List.mem_cons.mp hw' with rfl | hw2
        · simp at hc
        · exact ih w (hsp ▸ hw2) c hc
      · rw [if_neg hd] at hw'
        rcases List.mem_cons.mp hw' with rfl | hw2
        · rcases List.mem_cons.mp hc with rfl | hc2
          · simpa using hd
          · exact ih a (hsp ▸ List.mem_cons_self a b) c hc2
        · exact ih w (hsp ▸ List.mem_cons_of_mem a hw2) c hc

theorem pySplit_chars (s : Str) :
    ∀ w ∈ pySplit s, ∀ c ∈ w, isPySpace c = false := by
  intro w hw
  exact splitWsRaw_chars s w (List.mem_of_mem_filter hw)

theorem pySplit_no_newline (s : Str) : ∀ w ∈ pySplit s, '\n' ∉ w := by
  intro w hw hmem
  have := pySplit_chars s w hw '\n' hmem
  simp [isPySpace] at this

theorem joinSp_not_mem (c : Char) (hc : c ≠ ' ') :
    ∀ (ws : List Str), (∀ w ∈ ws, c ∉ w) → c ∉ joinSp ws := by
  intro ws
  induction ws with
  | nil => intro _; simp [joinSp]
  | cons w t ih =>
    intro hall
    cases t with
    | nil =>
      show c ∉ joinSp [w]
      simpa [joinSp] using hall w (List.mem_cons_self w [])
    | cons v u =>
      show c ∉ joinSp (w :: v :: u)
      have e : joinSp (w :: v :: u) = w ++ ' ' :: joinSp (v :: u) := rfl
      rw [e]
      intro hmem
      rcases List.mem_append.mp hmem with h1 | h2
      · exact hall w (List.mem_cons_self _ _) h1
      · rcases List.mem_cons.mp h2 with rfl | h3
        · exact hc rfl
        · exact ih (fun x hx => hall x (List.mem_cons_of_mem w hx)) h3

theorem joinSp_take_no_newline (words : List Str) (n : Nat)
    (h : ∀ w ∈ words, '\n' ∉ w) : '\n' ∉ joinSp (words.take n) :=
  joinSp_not_mem '\n' (by decide) _
    (fun w hw => h w (List.mem_of_mem_take hw))

theorem joinSp_drop_no_newline (words : List Str) (n : Nat)
    (h : ∀ w ∈ words, '\n' ∉ w) : '\n' ∉ joinSp (words.drop n) :=
  joinSp_not_mem '\n' (by decide) _
    (fun w hw => h w (List.mem_of_mem_drop hw))

/-- A two-line segment built from newline-free lines within the budget
satisfies the cue limits. -/
theorem cueWithinLimits_pair (a b : Str) (mc : Nat) (ha : '\n' ∉ a)
    (hb : '\n' ∉ b) (hla : a.length ≤ mc) (hlb : b.length ≤ mc) :
    cueWithinLimits (a ++ '\n' :: b) mc := by
  unfold cueWithinLimits
  rw [splitOnChar_pair '\n' a b ha hb]
  constructor
  · simp
  · intro l hl
    rcases List.mem_cons.mp hl with rfl | hl2
    · exact hla
    · rcases List.mem_cons.mp hl2 with rfl | hl3
      · exact hlb
      · simp at hl3

/-- A one-line newline-free segment within the budget satisfies the cue
limits. -/
theorem cueWithinLimits_single (a : Str) (mc : Nat) (ha : '\n' ∉ a)
    (hla : a.length ≤ mc) : cueWithinLimits a mc := by
  unfold cueWithinLimits
  rw [splitOnChar_of_not_mem '\n' a ha]
  constructor
  · simp
  · intro l hl
    rcases List.mem_cons.mp hl with rfl | hl2
    · exact hla
    · simp at hl2

theorem naturalBreakGo_some (words : List Str) (mc : Nat) :
    ∀ (fuel i : Nat) (seg : Str), naturalBreakGo fuel words mc i = some seg →
      ∃ k, seg = joinSp (words.take (k + 1)) ++ '\n' :: joinSp (words.drop (k + 1)) ∧
        (joinSp (words.take (k + 1))).length ≤ mc ∧
        (joinSp (words.drop (k + 1))).length ≤ mc := by
  intro fuel
  induction fuel with
  | zero => intro i seg h; simp [naturalBreakGo] at h
  | succ fuel ih =>
    intro i seg h
    by_cases hi : i < words.length - 1
    · rw [naturalBreakGo, if_pos hi] at h
      by_cases hpunct : (endsWithChar '.' (words.getD i []) ||
          endsWithChar ',' (words.getD i []) || endsWithChar ';' (words.getD i []) ||
          endsWithChar ':' (words.getD i [])) = true
      · rw [if_pos hpunct] at h
        by_cases hfit : (joinSp (words.take (i + 1))).length ≤ mc ∧
            (joinSp (words.drop (i + 1))).length ≤ mc
        · rw [if_pos hfit] at h
          injection h with h
          exact ⟨i, h.symm, hfit⟩
        · rw [if_neg hfit] at h
          exact ih (i + 1) seg h
      · rw [if_neg hpunct] at h
        exact ih (i + 1) seg h
    · rw [naturalBreakGo, if_neg hi] at h
      exact absurd h (by simp)

theorem breakGreedyGo_limits (mc : Nat) :
    ∀ (ws : List Str) (l1 l2 : Str) (acc : List Str),
      (∀ w ∈ ws, w.length ≤ mc ∧ '\n' ∉ w) →
      l1.length ≤ mc → '\n' ∉ l1 → l2.length ≤ mc → '\n' ∉ l2 →
      (∀ seg ∈ acc, cueWithinLimits seg mc) →
      ∀ seg ∈ breakGreedyGo mc ws l1 l2 acc, cueWithinLimits seg mc := by
  intro ws
  induction ws with
  | nil =>
    intro l1 l2 acc _ hl1 hn1 hl2 hn2 hacc seg hseg
    unfold breakGreedyGo at hseg
    by_cases hne : l1 ≠ [] ∨ l2 ≠ []
    · rw [if_pos hne] at hseg
      rcases List.mem_append.mp hseg with hs1 | hs2
      · exact hacc seg hs1
      · have : seg = l1 ++ (if l2 ≠ [] then '\n' :: l2 else []) := by
          simpa using hs2
        subst this
        by_cases h2 : l2 ≠ []
        · rw [if_pos h2]
          exact cueWithinLimits_pair l1 l2 mc hn1 hn2 hl1 hl2
        · rw [if_neg h2]
          simpa using cueWithinLimits_single l1 mc hn1 hl1
    · rw [if_neg hne] at hseg
      exact hacc seg hseg
  | cons w rest ih =>
    intro l1 l2 acc hws hl1 hn1 hl2 hn2 hacc seg hseg
    have hw := hws w (List.mem_cons_self w rest)
    have hws2 : ∀ x ∈ rest, x.length ≤ mc ∧ '\n' ∉ x :=
      fun x hx => hws x (List.mem_cons_of_mem w hx)
    unfold breakGreedyGo at hseg
    by_cases hc1 : l1.length + w.length + (if l1 ≠ [] then 1 else 0) ≤ mc
    · rw [if_pos hc1] at hseg
      refine ih _ _ _ hws2 ?_ ?_ hl2 hn2 hacc seg hseg
      · by_cases h1 : l1 ≠ []
        · rw [if_pos h1]
          rw [if_pos h1] at hc1
          simpa using hc1
        · rw [if_neg h1]
          rw [if_neg h1] at hc1
          omega
      · by_cases h1 : l1 ≠ []
        · rw [if_pos h1]
          intro hm
          rcases List.mem_append.mp hm with hx | hx
          · exact hn1 hx
          · rcases List.mem_cons.mp hx with hx2 | hx2
            · exact absurd hx2.symm (by decide)
            · exact hw.2 hx2
        · rw [if_neg h1]
          exact hw.2
    · rw [if_neg hc1] at hseg
      by_cases hc2 : l2.length + w.length + (if l2 ≠ [] then 1 else 0) ≤ mc
      · rw [if_pos hc2] at hseg
        refine ih _ _ _ hws2 hl1 hn1 ?_ ?_ hacc seg hseg
        · by_cases h2 : l2 ≠ []
          · rw [if_pos h2]
            rw [if_pos h2] at hc2
            simpa using hc2
          · rw [if_neg h2]
            rw [if_neg h2] at hc2
            omega
        · by_cases h2 : l2 ≠ []
          · rw [if_pos h2]
            intro hm
            rcases List.mem_append.mp hm with hx | hx
            · exact hn2 hx
            · rcases List.mem_cons.mp hx with hx2 | hx2
              · exact absurd hx2.symm (by decide)
              · exact hw.2 hx2
          · rw [if_neg h2]
            exact hw.2
      · rw [if_neg hc2] at hseg
        by_cases hc3 : l1 ≠ [] ∧ l2 ≠ []
        · rw [if_pos hc3] at hseg
          refine ih _ _ _ hws2 hw.1 hw.2 (by simp) (by simp) ?_ seg hseg
          intro x hx
          rcases List.mem_append.mp hx with hx1 | hx2
          · exact hacc x hx1
          · have : x = l1 ++ '\n' :: l2 := by simpa using hx2
            subst this
            exact cueWithinLimits_pair l1 l2 mc hn1 hn2 hl1 hl2
        · rw [if_neg hc3] at hseg
          refine ih _ _ _ hws2 hw.1 hw.2 (by simp) (by simp) ?_ seg hseg
          intro x hx
          rcases List.mem_append.mp hx with hx1 | hx2
          · exact hacc x hx1
          · have hxl : x = l1 := by simpa using hx2
            rw [hxl]
            exact cueWithinLimits_single l1 mc hn1 hl1

/-- C1 amended: the line breaker `_break_into_two_lines` produces cues of at
most two lines with every line within `max_chars`, for any newline-free text
all of whose whitespace-delimited tokens are within `max_chars`.  (The full
`split_text` pipeline does not have this property — see the counterexample —
and an over-long token is kept whole on a line rather than hard-chunked.) -/
theorem break_into_two_lines_within_limits (text : Str) (mc : Nat)
    (hnl : '\n' ∉ text) (hw : ∀ w ∈ pySplit text, w.length ≤ mc) :
    ∀ seg ∈ break_into_two_lines text mc, cueWithinLimits seg mc := by
  intro seg hseg
  have hwords : ∀ w ∈ pySplit text, w.length ≤ mc ∧ '\n' ∉ w :=
    fun w hmem => ⟨hw w hmem, pySplit_no_newline text w hmem⟩
  have hnlw : ∀ w ∈ pySplit text, '\n' ∉ w :=
    fun w hmem => pySplit_no_newline text w hmem
  unfold break_into_two_lines at hseg
  by_cases hlen : text.length ≤ mc
  · rw [if_pos hlen] at hseg
    have : seg = text := by simpa using hseg
    subst this
    exact cueWithinLimits_single seg mc hnl hlen
  · rw [if_neg hlen] at hseg
    by_cases htot : text.length ≤ mc * 2
    · rw [if_pos htot] at hseg
      cases hnat : naturalBreakGo (List.length (pySplit text) + 1)
          (pySplit text) mc 0 with
      | some s =>
        rw [hnat] at hseg
        have : seg = s := by simpa using hseg
        subst this
        obtain ⟨k, rfl, hk1, hk2⟩ :=
          naturalBreakGo_some (pySplit text) mc _ 0 seg hnat
        exact cueWithinLimits_pair _ _ mc
          (joinSp_take_no_newline _ _ hnlw) (joinSp_drop_no_newline _ _ hnlw)
          hk1 hk2
      | none =>
        rw [hnat] at hseg
        by_cases hbest : find_optimal_break_point (pySplit text) mc > 0
        · rw [if_pos hbest] at hseg
          have : seg = joinSp ((pySplit text).take
                (find_optimal_break_point (pySplit text) mc + 1)) ++
              '\n' :: joinSp ((pySplit text).drop
                (find_optimal_break_point (pySplit text) mc + 1)) := by
            simpa using hseg
          subst this
          obtain ⟨hf1, hf2⟩ := find_optimal_pos_fits (pySplit text) mc hbest
          exact cueWithinLimits_pair _ _ mc
            (joinSp_take_no_newline _ _ hnlw) (joinSp_drop_no_newline _ _ hnlw)
            hf1 hf2
        · rw [if_neg hbest] at hseg
          exact breakGreedyGo_limits mc (pySplit text) [] [] [] hwords
            (by simp) (by simp) (by simp) (by simp) (by simp) seg hseg
    · rw [if_neg htot] at hseg
      exact breakGreedyGo_limits mc (pySplit text) [] [] [] hwords
        (by simp) (by simp) (by simp) (by simp) (by simp) seg hseg

/-- Witness for C1's amended theorem: a 90-character sentence with no
punctuation is split into a two-line cue within the budget. -/
theorem break_into_two_lines_within_limits_witness :
    cueWithinLimits
      ((break_into_two_lines
        (("abcde abcde abcde abcde abcde abcde abcde abcde abcde abcde abcde abcde abcde abcde abcde").toList)
        42).getD 0 []) 42 :=
  break_into_two_lines_within_limits
    (("abcde abcde abcde abcde abcde abcde abcde abcde abcde abcde abcde abcde abcde abcde abcde").toList)
    42 (by decide) (by decide) _ (by decide)

/-! ## C2: idempotence of the (spec-modelled) Limit-Enforcement Pass -/

theorem splitWsRaw_of_no_ws (w : Str) (h : ∀ c ∈ w, isPySpace c = false) :
    splitWsRaw w = [w] := by
  induction w with
  | nil => rfl
  | cons c t ih =>
    have hc : isPySpace c = false := h c (List.mem_cons_self c t)
    have ht := ih (fun d hd => h d (List.mem_cons_of_mem c hd))
    show (match splitWsRaw t with
      | [] => [[c]]
      | hh :: tt => if isPySpace c then [] :: hh :: tt else (c :: hh) :: tt) = [c :: t]
    rw [ht]
    simp [hc]

theorem pySplit_of_no_ws (w : Str) (h : ∀ c ∈ w, isPySpace c = false)
    (hne : w ≠ []) : pySplit w = [w] := by
  unfold pySplit
  rw [splitWsRaw_of_no_ws w h]
  simp [hne]

theorem splitOnChar_not_mem_sep (sep : Char) (s : Str) :
    ∀ l ∈ splitOnChar sep s, sep ∉ l := by
  induction s with
  | nil =>
    intro l hl
    simp [splitOnChar] at hl
    subst hl
    simp
  | cons c t ih =>
    intro l hl
    rw [splitOnChar_cons] at hl
    cases hs : splitOnChar sep t with
    | nil => exact absurd hs (splitOnChar_ne_nil sep t)
    | cons a b =>
      rw [hs] at hl
      have hl' : l ∈ (if c = sep then ([] : Str) :: a :: b else (c :: a) :: b) := hl
      by_cases hc : c = sep
      · rw [if_pos hc] at hl'
        rcases List.mem_cons.mp hl' with rfl | h2
        · simp
        · exact ih l (hs ▸ h2)
      · rw [if_neg hc] at hl'
        rcases List.mem_cons.mp hl' with rfl | h2
        · intro hm
          rcases List.mem_cons.mp hm with he | hm2
          · exact hc he.symm
          · exact ih a (hs ▸ List.mem_cons_self a b) hm2
        · exact ih l (hs ▸ List.mem_cons_of_mem a h2)

theorem rewrapLine_of_goodLine (mc : Nat) (l : Str) (h : GoodLine mc l) :
    rewrapLine mc l = [l] := by
  unfold rewrapLine
  by_cases hlen : l.length ≤ mc
  · rw [if_pos hlen]
  · rw [if_neg hlen]
    rcases h.2 with h2 | ⟨hch, hne⟩
    · exact absurd h2 hlen
    · rw [pySplit_of_no_ws l hch hne]
      show greedyWrapGo mc [l] [] = [l]
      rw [greedyWrapGo, if_pos rfl]
      rw [greedyWrapGo]
      simp [hne]

theorem greedyWrapGo_goodLines (mc : Nat) :
    ∀ (ws : List Str) (cur : Str),
      (∀ w ∈ ws, w ≠ [] ∧ ∀ c ∈ w, isPySpace c = false) →
      (cur = [] ∨ GoodLine mc cur) →
      ∀ l ∈ greedyWrapGo mc ws cur, GoodLine mc l := by
  intro ws
  induction ws with
  | nil =>
    intro cur _ hcur l hl
    unfold greedyWrapGo at hl
    by_cases hc : cur = ([] : Str)
    · rw [if_pos hc] at hl
      simp at hl
    · rw [if_neg hc] at hl
      have : l = cur := by simpa using hl
      subst this
      rcases hcur with rfl | hgood
      · exact absurd rfl hc
      · exact hgood
  | cons w rest ih =>
    intro cur hws hcur l hl
    have hw := hws w (List.mem_cons_self w rest)
    have hws2 : ∀ x ∈ rest, x ≠ [] ∧ ∀ c ∈ x, isPySpace c = false :=
      fun x hx => hws x (List.mem_cons_of_mem w hx)
    have hwgood : GoodLine mc w ∨ True := Or.inr trivial
    unfold greedyWrapGo at hl
    by_cases hc : cur = ([] : Str)
    · rw [if_pos hc] at hl
      refine ih w hws2 (Or.inr ?_) l hl
      exact ⟨fun hm => absurd (hw.2 '\n' hm) (by decide), Or.inr ⟨hw.2, hw.1⟩⟩
    · rw [if_neg hc] at hl
      have hgood : GoodLine mc cur := by
        rcases hcur with rfl | hg
        · exact absurd rfl hc
        · exact hg
      by_cases hfit : cur.length + 1 + w.length ≤ mc
      · rw [if_pos hfit] at hl
        refine ih _ hws2 (Or.inr ⟨?_, Or.inl ?_⟩) l hl
        · intro hm
          rcases List.mem_append.mp hm with h1 | h2
          · exact hgood.1 h1
          · rcases List.mem_cons.mp h2 with he | h3
            · exact absurd he.symm (by decide)
            · exact absurd (hw.2 '\n' h3) (by decide)
        · simp only [List.length_append, List.length_cons]
          omega
      · rw [if_neg hfit] at hl
        rcases List.mem_cons.mp hl with rfl | h2
        · exact hgood
        · refine ih w hws2 (Or.inr ?_) l h2
          exact ⟨fun hm => absurd (hw.2 '\n' hm) (by decide), Or.inr ⟨hw.2, hw.1⟩⟩

theorem rewrapLine_goodLines (mc : Nat) (l0 : Str) (h : '\n' ∉ l0) :
    ∀ l ∈ rewrapLine mc l0, GoodLine mc l := by
  intro l hl
  unfold rewrapLine at hl
  by_cases hlen : l0.length ≤ mc
  · rw [if_pos hlen] at hl
    have : l = l0 := by simpa using hl
    subst this
    exact ⟨h, Or.inl hlen⟩
  · rw [if_neg hlen] at hl
    refine greedyWrapGo_goodLines mc (pySplit l0) [] ?_ (Or.inl rfl) l hl
    intro w hw
    refine ⟨?_, fun c hc => pySplit_chars l0 w hw c hc⟩
    have hw2 : w ∈ (splitWsRaw l0).filter (fun x => x ≠ []) := hw
    have := List.of_mem_filter hw2
    simpa using this

theorem enforceCue_flat_good (mc : Nat) (cue : Str) :
    ∀ l ∈ ((splitOnChar '\n' cue).map (rewrapLine mc)).flatten, GoodLine mc l := by
  intro l hl
  rw [List.mem_flatten] at hl
  obtain ⟨piece, hpiece, hlp⟩ := hl
  rw [List.mem_map] at hpiece
  obtain ⟨l0, hl0, rfl⟩ := hpiece
  exact rewrapLine_goodLines mc l0 (splitOnChar_not_mem_sep '\n' cue l0 hl0) l hlp

theorem regroupPairs_fixed_aux (mc : Nat) :
    ∀ (n : Nat) (lines : List Str), lines.length ≤ n →
      (∀ l ∈ lines, GoodLine mc l) →
      ∀ c ∈ regroupPairs lines, enforceCue mc c = [c] := by
  intro n
  induction n with
  | zero =>
    intro lines hn _ c hc
    have : lines = [] := List.length_eq_zero.mp (Nat.le_zero.mp hn)
    subst this
    simp [regroupPairs] at hc
  | succ n ih =>
    intro lines hn hall c hc
    match lines, hn, hall, hc with
    | [], _, _, hc => simp [regroupPairs] at hc
    | [a], _, hall, hc =>
      have : c = a := by simpa [regroupPairs] using hc
      subst this
      have hga := hall c (List.mem_cons_self c [])
      unfold enforceCue
      rw [splitOnChar_of_not_mem '\n' c hga.1]
      simp only [List.map_cons, List.map_nil, List.flatten]
      rw [rewrapLine_of_goodLine mc c hga]
      rfl
    | a :: b :: u, hn, hall, hc =>
      have hstep : regroupPairs (a :: b :: u) =
          (a ++ '\n' :: b) :: regroupPairs u := rfl
      rw [hstep] at hc
      have hga := hall a (List.mem_cons_self a (b :: u))
      have hgb := hall b (List.mem_cons_of_mem a (List.mem_cons_self b u))
      rcases List.mem_cons.mp hc with rfl | hc2
      · unfold enforceCue
        rw [splitOnChar_pair '\n' a b hga.1 hgb.1]
        simp only [List.map_cons, List.map_nil, List.flatten]
        rw [rewrapLine_of_goodLine mc a hga, rewrapLine_of_goodLine mc b hgb]
        rfl
      · refine ih u ?_ (fun l hl => hall l
          (List.mem_cons_of_mem a (List.mem_cons_of_mem b hl))) c hc2
        simp only [List.length_cons] at hn
        omega

theorem regroupPairs_fixed (mc : Nat) :
    ∀ (lines : List Str), (∀ l ∈ lines, GoodLine mc l) →
      ∀ c ∈ regroupPairs lines, enforceCue mc c = [c] :=
  fun lines => regroupPairs_fixed_aux mc lines.length lines (Nat.le_refl _)

theorem enforceCue_idem (mc : Nat) (cue : Str) :
    ∀ c ∈ enforceCue mc cue, enforceCue mc c = [c] := by
  intro c hc
  exact regroupPairs_fixed mc _ (enforceCue_flat_good mc cue) c hc

theorem flatten_map_of_singleton {α : Type} (f : α → List α) :
    ∀ (l : List α), (∀ x ∈ l, f x = [x]) → (l.map f).flatten = l := by
  intro l
  induction l with
  | nil => intro _; rfl
  | cons a t ih =>
    intro h
    simp only [List.map_cons, List.flatten_cons]
    rw [h a (List.mem_cons_self a t), ih (fun x hx => h x (List.mem_cons_of_mem a hx))]
    rfl

/-- C2: the Limit-Enforcement Pass is idempotent — applying it to its own
output returns exactly that output, for every cue list and every character
budget (in particular the audio path's `max_chars = 42`). -/
theorem enforce_character_limit_idempotent (cues : List Str) (mc : Nat) :
    enforce_character_limit (enforce_character_limit cues mc) mc =
      enforce_character_limit cues mc := by
  show ((enforce_character_limit cues mc).map (enforceCue mc)).flatten =
    enforce_character_limit cues mc
  refine flatten_map_of_singleton (enforceCue mc) _ ?_
  intro c hc
  have hc2 : c ∈ (cues.map (enforceCue mc)).flatten := hc
  rw [List.mem_flatten] at hc2
  obtain ⟨piece, hpiece, hcp⟩ := hc2
  rw [List.mem_map] at hpiece
  obtain ⟨cue, -, rfl⟩ := hpiece
  exact enforceCue_idem mc cue c hcp

end DocxSrt
